import Mathlib

/-!
Verification of the multi-round extraction/voting/merging pipeline of the
crowd-fund-crawl repository (crawler_agent/agents/advanced.py,
crawler_agent/agents/expert.py, crawler_agent/utils.py).

The Python values flowing through the pipeline (JSON-shaped results of the
external model) are modelled by the inductive type `JVal`; Python `dict`s are
modelled as association lists in insertion order with pairwise-distinct keys
(a well-formedness fact guaranteed by Python's `dict`).  Python `float`
scores (0.3, 0.6, 0.7, 0.9 …) are modelled as exact rationals; Python `int`
leaf values are modelled as `Int`.  Python's `bool` is kept as a separate
constructor; note that `isinstance(True, (int, float))` holds in Python, which
the validator model reproduces.
-/

/-- JSON-like values as produced by `proto_to_dict`: strings, numbers,
booleans, `None`, lists and dicts (association lists in insertion order). -/
inductive JVal where
  | str (s : String)
  | num (n : Int)
  | bool (b : Bool)
  | null
  | arr (elems : List JVal)
  | obj (fields : List (String × JVal))

/-- Python dict lookup `d.get(k)` on an association list (first match). -/
def assocFind : List (String × JVal) → String → Option JVal
  | [], _ => none
  | (k, v) :: rest, key => if k = key then some v else assocFind rest key

/-- Python dict assignment `d[k] = v`: replaces the value in place if the key
exists (keeping its position, as Python dicts do), otherwise appends. -/
def assocSet : List (String × JVal) → String → JVal → List (String × JVal)
  | [], key, v => [(key, v)]
  | (k, w) :: rest, key, v =>
      if k = key then (k, v) :: rest else (k, w) :: assocSet rest key v

/-- One step of Python `str.split(sep)` for a single-character separator,
at the code-point level; `acc` holds the current chunk reversed. -/
def splitChAux (sep : Char) : List Char → List Char → List (List Char)
  | [], acc => [acc.reverse]
  | c :: rest, acc =>
      if c = sep then acc.reverse :: splitChAux sep rest []
      else splitChAux sep rest (c :: acc)

/-- Python `key.split(sep)` for a one-character separator (the pipeline always
splits on `'.'`). -/
def pySplit (s : String) (sep : Char) : List String :=
  (splitChAux sep s.data []).map String.mk

/-- The key-joining step of `_flatten_dict`:
`new_key = f"{parent_key}{sep}{k}" if parent_key else k` with `sep = '.'`. -/
def flattenKey (parent k : String) : String :=
  if parent = "" then k else parent ++ "." ++ k

/-- `_flatten_dict` (advanced.py lines 301-320, expert.py lines 320-339):
recursively flattens dict values, joining keys with `'.'`; non-dict values
(including lists) are opaque leaves.  `dict(items)` keeps the produced order;
keys are unique whenever the input levels have unique, dot-free keys. -/
def flattenFields : List (String × JVal) → String → List (String × JVal)
  | [], _ => []
  | (k, JVal.obj sub) :: rest, parent =>
      flattenFields sub (flattenKey parent k) ++ flattenFields rest parent
  | (k, v) :: rest, parent => (flattenKey parent k, v) :: flattenFields rest parent

/-- The inner loop of `_unflatten_dict`: walk `parts`, creating `{}` for a
missing intermediate key (`d[part] = {}`) and descending; finally
`d[parts[-1]] = value`.  Descending through an existing non-dict value makes
Python raise (`in`/indexing on a non-dict), modelled as `Except.error`. -/
def setPath : List (String × JVal) → List String → JVal → Except Unit (List (String × JVal))
  | _, [], _ => .error ()
  | d, [last], v => .ok (assocSet d last v)
  | d, p :: q :: rest, v =>
      match assocFind d p with
      | some (JVal.obj sub) =>
          match setPath sub (q :: rest) v with
          | .ok sub2 => .ok (assocSet d p (JVal.obj sub2))
          | .error e => .error e
      | some _ => .error ()
      | none =>
          match setPath [] (q :: rest) v with
          | .ok sub2 => .ok (assocSet d p (JVal.obj sub2))
          | .error e => .error e

/-- The fold of `_unflatten_dict` over the flat items, threading the result
dict. -/
def unflattenAux : List (String × JVal) → List (String × JVal) → Except Unit (List (String × JVal))
  | acc, [] => .ok acc
  | acc, (k, v) :: rest =>
      match setPath acc (pySplit k '.') v with
      | .ok acc2 => unflattenAux acc2 rest
      | .error e => .error e

/-- `_unflatten_dict` (advanced.py lines 322-342, expert.py lines 341-361). -/
def unflattenFlat (items : List (String × JVal)) : Except Unit (List (String × JVal)) :=
  unflattenAux [] items

/-- A key usable in a lossless flatten/unflatten round trip: nonempty and
containing no occurrence of the `'.'` separator. -/
def okKeyB (k : String) : Bool :=
  !(k.data.isEmpty) && !(k.data.contains '.')

/-- Well-formedness of a nested dict for the round-trip theorem: at every
level keys are ok and pairwise distinct (Python dicts always have distinct
keys), and every dict value is a nonempty well-formed dict.  Lists are opaque
leaves and unconstrained. -/
def goodFields : List (String × JVal) → Bool
  | [] => true
  | (k, JVal.obj sub) :: rest =>
      okKeyB k && rest.all (fun kv => kv.1 != k) && !(sub.isEmpty) &&
        goodFields sub && goodFields rest
  | (k, _) :: rest =>
      okKeyB k && rest.all (fun kv => kv.1 != k) && goodFields rest

/-- Dotted path made of the component list `ps` (the `parent_key` built by
`_flatten_dict` after descending through keys `ps`). -/
def joinComps (ps : List String) : String :=
  ps.foldl flattenKey ""

/-- Reading the nested dict located at path `ps` (specification-side helper
for the round-trip proof). -/
def getObjPath : List (String × JVal) → List String → Option (List (String × JVal))
  | fields, [] => some fields
  | fields, p :: ps =>
      match assocFind fields p with
      | some (JVal.obj sub) => getObjPath sub ps
      | _ => none

/-- Replacing the nested dict located at path `ps` (only used where
`getObjPath` succeeds; otherwise returns the input unchanged). -/
def setObjAt : List (String × JVal) → List String → List (String × JVal) → List (String × JVal)
  | _, [], newFields => newFields
  | d, p :: ps, newFields =>
      match assocFind d p with
      | some (JVal.obj sub) => assocSet d p (JVal.obj (setObjAt sub ps newFields))
      | _ => d

/-- The chain of singleton dicts that `_unflatten_dict` creates for a run of
missing path components: `mkNested [a, b] v = {a: {b: v}}`. -/
def mkNested : List String → JVal → JVal
  | [], v => v
  | p :: ps, v => JVal.obj [(p, mkNested ps v)]

/-- Code-point-level view of a dotted path: the components interleaved with
`'.'` (proof-side helper relating `joinComps` to `pySplit`). -/
def joinData : List (List Char) → List Char
  | [] => []
  | [x] => x
  | x :: y :: rest => x ++ '.' :: joinData (y :: rest)

/-! ## Python value helpers shared by the validator, merge and vote logic -/

/-- Python truthiness (`bool(v)`) of a JSON-like value. -/
def isFalsyV : JVal → Bool
  | JVal.str s => s.data.isEmpty
  | JVal.num n => n == 0
  | JVal.bool b => !b
  | JVal.null => true
  | JVal.arr l => l.isEmpty
  | JVal.obj l => l.isEmpty

/-- Python truthiness of the optional result of `dict.get`. -/
def isFalsyOpt : Option JVal → Bool
  | none => true
  | some v => isFalsyV v

/-- `bool(v)` is true. -/
def truthyV (v : JVal) : Bool := !(isFalsyV v)

/-- ASCII whitespace stripped by Python `str.strip()` (the Unicode-only
space code points are not modelled; no pipeline constant contains them). -/
def isPySpace (c : Char) : Bool :=
  c = ' ' || c = '\t' || c = '\n' || c = '\r' || c = '\x0B' || c = '\x0C'

/-- Python `s.strip()` at the code-point level. -/
def pyStrip (l : List Char) : List Char :=
  ((l.dropWhile isPySpace).reverse.dropWhile isPySpace).reverse

/-- `len(s.strip())`, the only use the pipeline makes of stripping. -/
def trimmedLen (s : String) : Nat := (pyStrip s.data).length

/-- Does `hay` start with `needle`? (helper for Python substring `in`). -/
def leadsWith : List Char → List Char → Bool
  | [], _ => true
  | _ :: _, [] => false
  | a :: as, b :: bs => a == b && leadsWith as bs

/-- Python substring test `needle in hay` at the code-point level. -/
def hasSub (needle : List Char) : List Char → Bool
  | [] => needle.isEmpty
  | b :: bs => leadsWith needle (b :: bs) || hasSub needle bs

/-- The fixed error markers shared by `_validate_field_quality` and
`_intelligent_merge`. -/
def errorIndicators : List String :=
  ["null", "undefined", "not found", "n/a", "no data", "error"]

/-- `any(indicator in value.lower() for indicator in error_indicators)`;
`str.lower()` is modelled by `Char.toLower`, which agrees on the ASCII
markers involved. -/
def containsMarker (s : String) : Bool :=
  errorIndicators.any (fun ind => hasSub ind.data (s.data.map Char.toLower))

/-! ## Quality validator (`_validate_field_quality`, expert.py lines 166-273) -/

/-- The `type`/`required` part of one field configuration entry. -/
structure FieldCfg where
  ftype : String
  required : Bool

/-- `extracted_data.get(field_name) if isinstance(extracted_data, dict) else
None`; a stored `None` value is indistinguishable from an absent key. -/
def pyGetField (data : JVal) (name : String) : Option JVal :=
  match data with
  | JVal.obj fields =>
      match assocFind fields name with
      | some JVal.null => none
      | o => o
  | _ => none

/-- Issue messages (the literal Python text also quotes the field name and,
for the last message, the value; only the number of issues is ever consumed,
so quoting is dropped here). -/
def msgRequired (name : String) : String := "Required field " ++ name ++ " is missing"

/-- Issue text for a non-numeric value in a number field. -/
def msgNumber (name : String) : String := "Field " ++ name ++ " should be a number"

/-- Issue text for a non-string value in a string field. -/
def msgString (name : String) : String := "Field " ++ name ++ " should be a string"

/-- Issue text for a 1-3 character string. -/
def msgShort (name : String) : String := "Field " ++ name ++ " seems too short"

/-- Issue text for an empty/whitespace string. -/
def msgEmpty (name : String) : String := "Field " ++ name ++ " is empty or whitespace"

/-- Issue text for a value containing an error marker. -/
def msgErrorText (name : String) : String := "Field " ++ name ++ " contains error text"

/-- One iteration of the validator loop body (expert.py lines 208-253):
returns this field's score contribution and the issues it appends. -/
def fieldStep (data : JVal) (name : String) (fc : FieldCfg) : ℚ × List String :=
  let fv := pyGetField data name
  if fc.required && isFalsyOpt fv then (0, [msgRequired name])
  else
    match fv with
    | none => (0, [])
    | some v =>
        let base : ℚ × List String :=
          if fc.ftype = "number" then
            match v with
            | JVal.num _ => (1, [])
            | JVal.bool _ => (1, [])   -- isinstance(True, (int, float)) holds
            | _ => (1/2, [msgNumber name])
          else if fc.ftype = "string" then
            match v with
            | JVal.str s =>
                if 3 < trimmedLen s then ((1 : ℚ), [])
                else if 0 < trimmedLen s then (7/10, [msgShort name])
                else (3/10, [msgEmpty name])
            | _ => (1/2, [msgString name])
          else (0, [])                 -- any other configured type is never scored
        match v with
        | JVal.str s =>
            if containsMarker s then (base.1 * (3/10), base.2 ++ [msgErrorText name])
            else base
        | _ => base

/-- The loop plus aggregation of `_validate_field_quality`
(expert.py lines 203-268): `(is_valid, confidence, issues)`. -/
def validateFields (data : JVal) (fields : List (String × FieldCfg)) :
    Bool × ℚ × List String :=
  let acc := fields.foldl
    (fun (acc : ℚ × List String) nf =>
      let st := fieldStep data nf.1 nf.2
      (acc.1 + st.1, acc.2 ++ st.2)) (0, [])
  if 0 < fields.length then
    let confidence := acc.1 / (fields.length : ℚ)
    ((decide ((3 : ℚ)/5 ≤ confidence) && decide (acc.2.length ≤ 2)), confidence, acc.2)
  else (false, 0, acc.2)

/-- `s in l` for a Python string against a list of values (string elements
compare by equality, every other element compares unequal to a string). -/
def listContainsStr (l : List JVal) (s : String) : Bool :=
  l.any (fun v => match v with | JVal.str t => t == s | _ => false)

/-- `_validate_field_quality` including the falsy pre-check, the
`object_name` unwrapping and the blanket `except` (expert.py lines 166-273).
For non-dict arguments, `object_name in data_dict` either raises `TypeError`
(numbers/booleans; caught, producing the validation-error tuple) or is a
substring/membership test (strings/lists) whose success leads to a raising
index expression. -/
def validateFieldQuality (objectName : String) (fields : List (String × FieldCfg))
    (data : JVal) : Bool × ℚ × List String :=
  if isFalsyV data then (false, 0, ["No data extracted"])
  else
    match data with
    | JVal.obj dfields =>
        let extracted :=
          match assocFind dfields objectName with
          | some v => v
          | none =>
              match dfields with
              | [single] => single.2
              | _ => JVal.obj dfields
        validateFields extracted fields
    | JVal.str s =>
        if hasSub objectName.data s.data then (false, 0, ["Validation error"])
        else validateFields (JVal.str s) fields
    | JVal.arr l =>
        if listContainsStr l objectName then (false, 0, ["Validation error"])
        else validateFields (JVal.arr l) fields
    | _ => (false, 0, ["Validation error"])

/-! ## Voting reconciler (`_vote_on_extractions`, advanced.py lines 344-407) -/

/-- Scalar guard `isinstance(v, (str, int, float))`; Python `bool` is an
`int` subclass and therefore counts as scalar. -/
def isScalarB : JVal → Bool
  | JVal.str _ => true
  | JVal.num _ => true
  | JVal.bool _ => true
  | _ => false

/-- Python `==` restricted to the scalar values the `Counter` branch can see
(booleans compare equal to the corresponding integers, as in Python).
Non-scalar and `None` operands never reach this comparison: values are
filtered for `is not None` first and `Counter` is guarded by the scalar
check. -/
def pyScalarEq (a b : JVal) : Bool :=
  match a, b with
  | JVal.str x, JVal.str y => x == y
  | JVal.str _, _ => false
  | _, JVal.str _ => false
  | JVal.num x, JVal.num y => x == y
  | JVal.num x, JVal.bool y => x == (if y then (1 : Int) else 0)
  | JVal.bool x, JVal.num y => (if x then (1 : Int) else 0) == y
  | JVal.bool x, JVal.bool y => x == y
  | _, _ => false

/-- Multiplicity of `v` in `values` under Python equality (`Counter` count). -/
def countV (values : List JVal) (v : JVal) : Nat :=
  values.countP (fun w => pyScalarEq v w)

/-- The distinct keys of `Counter(values)` in insertion order: first-seen
representatives of each equality class. -/
def firstSeenUniques (values : List JVal) : List JVal :=
  values.foldl (fun acc v => if acc.any (fun u => pyScalarEq v u) then acc else acc ++ [v]) []

/-- CPython `max(items, key=count)`: replaces the running best only on a
strictly larger count, so the first maximal element wins. -/
def maxByCount (values : List JVal) : List JVal → JVal → JVal
  | [], best => best
  | u :: us, best =>
      maxByCount values us (if countV values best < countV values u then u else best)

/-- `Counter(values).most_common(1)[0][0]` (CPython dispatches
`most_common(1)` to a first-maximum scan over the counter items). -/
def mostCommonFirst (values : List JVal) : Option JVal :=
  match firstSeenUniques values with
  | [] => none
  | u :: us => some (maxByCount values us u)

/-- `values` collected for one key: `extraction[key]` over the flattened
inputs in order, keeping only present, non-`None` values. -/
def collectVals (flats : List (List (String × JVal))) (k : String) : List JVal :=
  flats.filterMap (fun f =>
    match assocFind f k with
    | some JVal.null => none
    | some v => some v
    | none => none)

/-- `all_keys`: the union of the flattened key sets.  Python iterates a
`set`, whose order is unspecified; each key's vote is independent of that
order, and the model fixes first-seen order. -/
def allKeys (flats : List (List (String × JVal))) : List String :=
  flats.foldl (fun acc f =>
    f.foldl (fun acc2 kv => if acc2.contains kv.1 then acc2 else acc2 ++ [kv.1]) acc) []

/-- The vote for one key: most frequent scalar (ties to first seen) when all
collected values are scalars, otherwise the first value; `none` when no
non-null value exists (the key is then skipped). -/
def voteFor (flats : List (List (String × JVal))) (k : String) : Option JVal :=
  match collectVals flats k with
  | [] => none
  | v :: vs =>
      if (v :: vs).all isScalarB then mostCommonFirst (v :: vs)
      else some v

/-- `voted_result`: one entry per key that received at least one vote. -/
def voteCore (flats : List (List (String × JVal))) : List (String × JVal) :=
  (allKeys flats).filterMap (fun k => (voteFor flats k).map (fun w => (k, w)))

/-- Flattening one extraction inside the per-extraction `try`: a non-dict
raises in `_flatten_dict` and is skipped. -/
def flattenTop : JVal → Option (List (String × JVal))
  | JVal.obj fields => some (flattenFields fields "")
  | _ => none

/-- `_vote_on_extractions`: truthy extractions are flattened, voted on per
key and unflattened.  Errors escaping `_unflatten_dict` are uncaught,
modelled by `Except.error`. -/
def voteOnExtractions (extractions : List JVal) : Except Unit (Option JVal) :=
  match extractions with
  | [] => .ok none
  | _ =>
      let flats := extractions.filterMap (fun e => if truthyV e then flattenTop e else none)
      match flats with
      | [] => .ok none
      | _ =>
          match unflattenFlat (voteCore flats) with
          | .ok d => .ok (some (JVal.obj d))
          | .error e => .error e

/-! ## Confidence-weighted merge (`_intelligent_merge`, expert.py lines 363-451) -/

/-- Unwrapping of one extraction (expert.py lines 386-404): non-dicts are
silently dropped (`isinstance` guard with no else branch); otherwise the
`object_name` value, the single value of a singleton dict, or the dict
itself. -/
def processExtraction (objectName : String) (e : JVal) : Option JVal :=
  match e with
  | JVal.obj dfields =>
      some (match assocFind dfields objectName with
            | some v => v
            | none =>
                match dfields with
                | [single] => single.2
                | _ => JVal.obj dfields)
  | _ => none

/-- The replacement decision of the merge loop (expert.py lines 419-438):
fill missing/None values; for string-vs-string, replace when the base
contains an error marker, or else when the candidate's stripped length is
strictly larger. -/
def shouldReplace (cur : Option JVal) (v : JVal) : Bool :=
  if (match cur with | none => true | some JVal.null => true | _ => false) &&
     !(match v with | JVal.null => true | _ => false) then true
  else
    match cur, v with
    | some (JVal.str s), JVal.str t =>
        containsMarker s || decide (trimmedLen s < trimmedLen t)
    | _, _ => false

/-- One field of one lower-confidence candidate applied to the base
(`base_data[field_name] = field_value` when the decision fires). -/
def mergeField (base : List (String × JVal)) (k : String) (v : JVal) :
    List (String × JVal) :=
  if shouldReplace (assocFind base k) v then assocSet base k v else base

/-- `for field_name, field_value in data.items(): ...` over one candidate. -/
def applyCandidate (base fields : List (String × JVal)) : List (String × JVal) :=
  fields.foldl (fun b kv => mergeField b kv.1 kv.2) base

/-- The merge loop over the remaining candidates; a non-dict candidate makes
`data.items()` raise (uncaught). -/
def mergeAll (base : List (String × JVal)) : List (JVal × ℚ) → Except Unit (List (String × JVal))
  | [] => .ok base
  | (d, _) :: rest =>
      match d with
      | JVal.obj fields => mergeAll (applyCandidate base fields) rest
      | _ => .error ()

/-- The merge body after sorting (expert.py lines 383-451).  A non-dict base
value raises at `.copy()` (except for a list, which copies fine and raises
later only if another candidate follows). -/
def mergeSorted (objectName : String) (sorted : List (JVal × ℚ)) :
    Except Unit (Option JVal) :=
  let processed := sorted.filterMap (fun ec =>
    if truthyV ec.1 then (processExtraction objectName ec.1).map (fun d => (d, ec.2))
    else none)
  match processed with
  | [] => .ok none
  | (d, _) :: rest =>
      match d with
      | JVal.obj baseFields =>
          match mergeAll baseFields rest with
          | .ok merged => .ok (some (JVal.obj [(objectName, JVal.obj merged)]))
          | .error e => .error e
      | JVal.arr elems =>
          match rest with
          | [] => .ok (some (JVal.obj [(objectName, JVal.arr elems)]))
          | _ => .error ()
      | _ => .error ()

/-- Descending-by-confidence comparison handed to the stable sort
(`extractions.sort(key=lambda x: x[1], reverse=True)`). -/
def confDescB (a b : JVal × ℚ) : Bool := decide (b.2 ≤ a.2)

/-- `_intelligent_merge` with the post-call state of the caller's list as
second component: `list.sort` mutates the argument in place (the early
return for an empty list happens before the sort, leaving the list
untouched).  Lean's `mergeSort` and CPython's sort are both stable, hence
produce the same ordering. -/
def intelligentMergeRun (objectName : String) (extractions : List (JVal × ℚ)) :
    Except Unit (Option JVal) × List (JVal × ℚ) :=
  match extractions with
  | [] => (.ok none, [])
  | _ =>
      let sorted := extractions.mergeSort confDescB
      (mergeSorted objectName sorted, sorted)

/-! ## Retry controllers -/

/-- `_extract_with_smart_retry`'s loop (expert.py lines 290-318), generic in
the payload: `attempts` models the successive outcomes of
`_extract_data_with_enhanced_prompt` (`none` = falsy/failed), `val` the
validation outcome `(is_valid, confidence)` of a payload.  Returns the held
`(best_extraction, best_confidence)` and the number of attempts actually
issued (the loop breaks after a valid attempt with confidence above 0.9). -/
def smartRetryGo {α : Type} (truthy : α → Bool) (val : α → Bool × ℚ) :
    List (Option α) → Option α × ℚ → (Option α × ℚ) × Nat
  | [], best => (best, 0)
  | a :: rest, (be, bc) =>
      match a with
      | none =>
          let r := smartRetryGo truthy val rest (be, bc)
          (r.1, r.2 + 1)
      | some x =>
          if truthy x then
            let vc := val x
            if vc.1 && decide (bc < vc.2) then
              if decide ((9 : ℚ)/10 < vc.2) then ((some x, vc.2), 1)
              else
                let r := smartRetryGo truthy val rest (some x, vc.2)
                (r.1, r.2 + 1)
            else if decide (bc < vc.2) then
              let r := smartRetryGo truthy val rest (some x, vc.2)
              (r.1, r.2 + 1)
            else
              let r := smartRetryGo truthy val rest (be, bc)
              (r.1, r.2 + 1)
          else
            let r := smartRetryGo truthy val rest (be, bc)
            (r.1, r.2 + 1)

/-- `_extract_with_retry`'s loop (advanced.py lines 275-299): unlike the
expert variant there is no `elif`, so only valid attempts can replace the
held best; the early-exit threshold is 0.8. -/
def advancedRetryGo {α : Type} (truthy : α → Bool) (val : α → Bool × ℚ) :
    List (Option α) → Option α × ℚ → (Option α × ℚ) × Nat
  | [], best => (best, 0)
  | a :: rest, (be, bc) =>
      match a with
      | none =>
          let r := advancedRetryGo truthy val rest (be, bc)
          (r.1, r.2 + 1)
      | some x =>
          if truthy x then
            let vc := val x
            if vc.1 && decide (bc < vc.2) then
              if decide ((4 : ℚ)/5 < vc.2) then ((some x, vc.2), 1)
              else
                let r := advancedRetryGo truthy val rest (some x, vc.2)
                (r.1, r.2 + 1)
            else
              let r := advancedRetryGo truthy val rest (be, bc)
              (r.1, r.2 + 1)
          else
            let r := advancedRetryGo truthy val rest (be, bc)
            (r.1, r.2 + 1)

/-! ## Pipelines (`process_html`) -/

/-- The expert agent validates with `_validate_field_quality`. -/
def expertValOf (objectName : String) (fields : List (String × FieldCfg)) (x : JVal) :
    Bool × ℚ :=
  let r := validateFieldQuality objectName fields x
  (r.1, r.2.1)

/-- One expert round: `for attempt in range(2)` — exactly two attempt
outcomes per round. -/
def expertRound (objectName : String) (fields : List (String × FieldCfg))
    (a1 a2 : Option JVal) : Option JVal × ℚ :=
  (smartRetryGo truthyV (expertValOf objectName fields) [a1, a2] (none, 0)).1

/-- Candidate collection of expert `process_html` (lines 495-498):
`if extraction and confidence > 0.3`. -/
def expertCandidates (objectName : String) (fields : List (String × FieldCfg))
    (rounds : List (Option JVal × Option JVal)) : List (JVal × ℚ) :=
  rounds.filterMap (fun r =>
    match expertRound objectName fields r.1 r.2 with
    | (some e, c) => if truthyV e && decide ((3 : ℚ)/10 < c) then some (e, c) else none
    | (none, _) => none)

/-- Expert `process_html` outcome (lines 502-515): merge the candidates, or
`None` when there are none. -/
def expertProcess (objectName : String) (fields : List (String × FieldCfg))
    (rounds : List (Option JVal × Option JVal)) : Except Unit (Option JVal) :=
  match expertCandidates objectName fields rounds with
  | [] => .ok none
  | c :: cs => (intelligentMergeRun objectName (c :: cs)).1

/-- Candidate collection of advanced `process_html` (lines 453-456):
`if extraction: extractions.append(extraction)`.  The advanced agent's
verification is an external model call, passed as the oracle `val`. -/
def advancedCandidates (val : JVal → Bool × ℚ)
    (rounds : List (List (Option JVal))) : List JVal :=
  rounds.filterMap (fun att =>
    match (advancedRetryGo truthyV val att (none, 0)).1 with
    | (some e, _) => if truthyV e then some e else none
    | (none, _) => none)

/-- Advanced `process_html` outcome (lines 458-471): vote on the candidates,
or `None` when there are none. -/
def advancedProcess (val : JVal → Bool × ℚ)
    (rounds : List (List (Option JVal))) : Except Unit (Option JVal) :=
  match advancedCandidates val rounds with
  | [] => .ok none
  | c :: cs => voteOnExtractions (c :: cs)

/-! ## Schema builder (`create_function_declaration_from_config`, utils.py lines 8-73) -/

/-- One entry of `config["fields"]`. -/
structure FieldEntry where
  ftype : String
  description : String
  required : Bool

/-- The caller-supplied configuration (JSON file). -/
structure CrawlerConfig where
  functionName : String
  functionDescription : String
  objectName : String
  isArray : Bool
  fields : List (String × FieldEntry)

/-- The produced `FunctionDeclaration` (its `parameters` JSON schema is kept
as a `JVal`). -/
structure FunctionDecl where
  name : String
  description : String
  parameters : JVal

/-- Python `"\n".join`. -/
def joinNl : List String → String
  | [] => ""
  | [x] => x
  | x :: y :: rest => x ++ "\n" ++ joinNl (y :: rest)

/-- The combined description text. -/
def buildFullDescription (config : CrawlerConfig) : String :=
  let fieldDescriptions := config.fields.map (fun nf => "- " ++ nf.1 ++ ": " ++ nf.2.description)
  if fieldDescriptions.isEmpty then config.functionDescription
  else
    config.functionDescription ++
      (if config.isArray then ". Each object must include:\n" else ". The object must include:\n") ++
      joinNl fieldDescriptions

/-- `properties[field_name] = {"type": field_config["type"]}` — the type
string is copied verbatim, with no validation whatsoever. -/
def fieldProperties (config : CrawlerConfig) : List (String × JVal) :=
  config.fields.map (fun nf => (nf.1, JVal.obj [("type", JVal.str nf.2.ftype)]))

/-- The `required` name list. -/
def requiredNames (config : CrawlerConfig) : List JVal :=
  (config.fields.filter (fun nf => nf.2.required)).map (fun nf => JVal.str nf.1)

/-- The object (or array-of-objects) schema. -/
def objectSchema (config : CrawlerConfig) : JVal :=
  let inner := JVal.obj
    [("type", JVal.str "object"),
     ("properties", JVal.obj (fieldProperties config)),
     ("required", JVal.arr (requiredNames config))]
  if config.isArray then JVal.obj [("type", JVal.str "array"), ("items", inner)] else inner

/-- `create_function_declaration_from_config`: a total function — the source
contains no validation and no raise statement; any type string and any field
name (including the empty one) flows through verbatim. -/
def createFunctionDeclarationFromConfig (config : CrawlerConfig) : FunctionDecl :=
  { name := config.functionName
    description := buildFullDescription config
    parameters := JVal.obj
      [("type", JVal.str "object"),
       ("properties", JVal.obj [(config.objectName, objectSchema config)]),
       ("required", JVal.arr [JVal.str config.objectName])] }

/-! ## Claim-side specification definitions -/

/-- Modelled from claim C3's literal tier wording (no clause for absent,
null or required-falsy values): numeric fields score 1.0 if numeric else
0.5; string fields 1.0 / 0.7 / 0.3 by trimmed length; a string containing an
error marker has its score multiplied by 0.3. -/
def claimTierScore (data : JVal) (name : String) (fc : FieldCfg) : ℚ :=
  let fv := pyGetField data name
  let base : ℚ :=
    if fc.ftype = "number" then
      match fv with
      | some (JVal.num _) => 1
      | some (JVal.bool _) => 1
      | _ => 1/2
    else if fc.ftype = "string" then
      match fv with
      | some (JVal.str s) =>
          if 3 < trimmedLen s then 1 else if 0 < trimmedLen s then 7/10 else 3/10
      | _ => 1/2
    else 0
  match fv with
  | some (JVal.str s) => if containsMarker s then base * (3/10) else base
  | _ => base

/-- The amended per-field score: as the claim's tiers, extended by the rules
the code actually applies to values the tiers do not cover — an absent or
null field scores 0, a required field with a falsy value scores 0, and a
field whose configured type is neither `number` nor `string` scores 0. -/
def claimTierScoreAmended (data : JVal) (name : String) (fc : FieldCfg) : ℚ :=
  let fv := pyGetField data name
  if fc.required && isFalsyOpt fv then 0
  else
    match fv with
    | none => 0
    | some v =>
        let base : ℚ :=
          if fc.ftype = "number" then
            match v with
            | JVal.num _ => 1
            | JVal.bool _ => 1
            | _ => 1/2
          else if fc.ftype = "string" then
            match v with
            | JVal.str s =>
                if 3 < trimmedLen s then 1 else if 0 < trimmedLen s then 7/10 else 3/10
            | _ => 1/2
          else 0
        match v with
        | JVal.str s => if containsMarker s then base * (3/10) else base
        | _ => base

/-- First index of a value equal (in the Python sense) to `v` — the
"first-seen" position used to state the voting tie-break. -/
def firstIdx (values : List JVal) (v : JVal) : Nat :=
  values.findIdx (fun u => pyScalarEq v u)

/-- The voting claim's selection property: `v` sits in the list, its count
is maximal, and every value of equal count was first seen no earlier. -/
def MostFreqFirstSeen (values : List JVal) (v : JVal) : Prop :=
  v ∈ values ∧
  (∀ w ∈ values, countV values w ≤ countV values v) ∧
  (∀ w ∈ values, countV values w = countV values v → firstIdx values v ≤ firstIdx values w)

/-! ## Association list lemmas -/

theorem assocFind_assocSet_self (d : List (String × JVal)) (k : String) (v : JVal) :
    assocFind (assocSet d k v) k = some v := by
  induction d with
  | nil => simp [assocSet, assocFind]
  | cons hd tl ih =>
      obtain ⟨k1, v1⟩ := hd
      by_cases h : k1 = k
      · subst h; simp [assocSet, assocFind]
      · simp [assocSet, assocFind, h, ih]

theorem assocFind_assocSet_ne (d : List (String × JVal)) (k k' : String) (v : JVal)
    (h : k' ≠ k) : assocFind (assocSet d k v) k' = assocFind d k' := by
  have hne : k ≠ k' := Ne.symm h
  induction d with
  | nil => simp [assocSet, assocFind, hne]
  | cons hd tl ih =>
      obtain ⟨k1, v1⟩ := hd
      by_cases h1 : k1 = k
      · subst h1
        simp [assocSet, assocFind, hne]
      · by_cases h2 : k1 = k'
        · subst h2; simp [assocSet, assocFind, h1]
        · simp [assocSet, assocFind, h1, h2, ih]

theorem assocSet_assocSet_self (d : List (String × JVal)) (k : String) (v w : JVal) :
    assocSet (assocSet d k v) k w = assocSet d k w := by
  induction d with
  | nil => simp [assocSet]
  | cons hd tl ih =>
      obtain ⟨k1, v1⟩ := hd
      by_cases h : k1 = k
      · subst h; simp [assocSet]
      · simp [assocSet, h, ih]

theorem assocSet_of_find_eq (d : List (String × JVal)) (k : String) (w : JVal)
    (h : assocFind d k = some w) : assocSet d k w = d := by
  induction d with
  | nil => simp [assocFind] at h
  | cons hd tl ih =>
      obtain ⟨k1, v1⟩ := hd
      by_cases h1 : k1 = k
      · subst h1
        simp [assocFind] at h
        simp [assocSet, h]
      · simp [assocFind, h1] at h
        simp [assocSet, h1, ih h]

theorem assocFind_append_of_none (d l : List (String × JVal)) (k : String)
    (h : assocFind d k = none) : assocFind (d ++ l) k = assocFind l k := by
  induction d with
  | nil => simp
  | cons hd tl ih =>
      obtain ⟨k1, v1⟩ := hd
      by_cases h1 : k1 = k
      · simp [assocFind, h1] at h
      · simp [assocFind, h1] at h ⊢
        exact ih h

theorem assocSet_append_of_none (d : List (String × JVal)) (k : String) (v : JVal)
    (h : assocFind d k = none) : assocSet d k v = d ++ [(k, v)] := by
  induction d with
  | nil => simp [assocSet]
  | cons hd tl ih =>
      obtain ⟨k1, v1⟩ := hd
      by_cases h1 : k1 = k
      · simp [assocFind, h1] at h
      · simp [assocFind, h1] at h
        simp [assocSet, h1, ih h]

theorem assocSet_append_last (d : List (String × JVal)) (k : String) (x y : JVal)
    (h : assocFind d k = none) : assocSet (d ++ [(k, x)]) k y = d ++ [(k, y)] := by
  induction d with
  | nil => simp [assocSet]
  | cons hd tl ih =>
      obtain ⟨k1, v1⟩ := hd
      by_cases h1 : k1 = k
      · simp [assocFind, h1] at h
      · simp [assocFind, h1] at h
        simp [assocSet, h1, ih h]

theorem assocFind_append_last_self (d : List (String × JVal)) (k : String) (x : JVal)
    (h : assocFind d k = none) : assocFind (d ++ [(k, x)]) k = some x := by
  rw [assocFind_append_of_none d _ k h]
  simp [assocFind]

/-! ## Split/join lemmas for the dotted-path round trip -/

theorem okKeyB_iff (k : String) : okKeyB k = true ↔ k.data ≠ [] ∧ '.' ∉ k.data := by
  simp [okKeyB, List.isEmpty_iff]

theorem splitChAux_no_sep (sep : Char) (l : List Char) (h : sep ∉ l) (acc : List Char) :
    splitChAux sep l acc = [acc.reverse ++ l] := by
  induction l generalizing acc with
  | nil => simp [splitChAux]
  | cons c rest ih =>
      have hc : ¬ c = sep := by
        intro hh; exact h (hh ▸ List.mem_cons_self c rest)
      have hr : sep ∉ rest := fun hh => h (List.mem_cons_of_mem c hh)
      simp [splitChAux, hc, ih hr]

theorem splitChAux_with_sep (sep : Char) (l : List Char) (h : sep ∉ l) (r acc : List Char) :
    splitChAux sep (l ++ sep :: r) acc = (acc.reverse ++ l) :: splitChAux sep r [] := by
  induction l generalizing acc with
  | nil => simp [splitChAux]
  | cons c rest ih =>
      have hc : ¬ c = sep := by
        intro hh; exact h (hh ▸ List.mem_cons_self c rest)
      have hr : sep ∉ rest := fun hh => h (List.mem_cons_of_mem c hh)
      simp [splitChAux, hc, ih hr]

theorem joinData_cons_append (x y : List Char) (zs : List (List Char)) :
    joinData ((x ++ '.' :: y) :: zs) = x ++ '.' :: joinData (y :: zs) := by
  cases zs with
  | nil => simp [joinData]
  | cons z zs2 => simp [joinData]

theorem joinData_ne_nil (x : List Char) (xs : List (List Char)) (h : x ≠ []) :
    joinData (x :: xs) ≠ [] := by
  cases xs with
  | nil => simpa [joinData] using h
  | cons y ys => simp [joinData]

theorem flattenKey_data (a b : String) (h : a.data ≠ []) :
    (flattenKey a b).data = a.data ++ '.' :: b.data := by
  have ha : ¬ a = "" := by
    intro hh
    subst hh
    exact h rfl
  have hdot : ("." : String).data = ['.'] := rfl
  simp [flattenKey, ha, String.data_append, hdot]

theorem joinComps_go (rest : List String) (a : String) (h : a.data ≠ []) :
    (List.foldl flattenKey a rest).data = joinData (a.data :: rest.map String.data) := by
  induction rest generalizing a with
  | nil => simp [joinData]
  | cons b rest2 ih =>
      have hab : (flattenKey a b).data = a.data ++ '.' :: b.data := flattenKey_data a b h
      have hab2 : (flattenKey a b).data ≠ [] := by
        rw [hab]; simp
      calc (List.foldl flattenKey a (b :: rest2)).data
          = (List.foldl flattenKey (flattenKey a b) rest2).data := by simp [List.foldl_cons]
        _ = joinData ((flattenKey a b).data :: rest2.map String.data) := ih _ hab2
        _ = joinData ((a.data ++ '.' :: b.data) :: rest2.map String.data) := by rw [hab]
        _ = a.data ++ '.' :: joinData (b.data :: rest2.map String.data) :=
            joinData_cons_append _ _ _

theorem joinComps_cons_data (p : String) (ps : List String) (hp : p.data ≠ []) :
    (joinComps (p :: ps)).data = joinData ((p :: ps).map String.data) := by
  have h0 : flattenKey "" p = p := by simp [flattenKey]
  simp only [joinComps, List.foldl_cons, h0]
  simpa using joinComps_go ps p hp

theorem split_joinData : ∀ cs : List (List Char), cs ≠ [] → (∀ c ∈ cs, '.' ∉ c) →
    splitChAux '.' (joinData cs) [] = cs ∧
    ∀ t, '.' ∉ t → splitChAux '.' (joinData cs ++ '.' :: t) [] = cs ++ [t] := by
  intro cs
  induction cs with
  | nil => intro h; exact absurd rfl h
  | cons x xs ih =>
      intro _ hall
      have hx : '.' ∉ x := hall x (List.mem_cons_self x xs)
      cases xs with
      | nil =>
          constructor
          · simpa [joinData] using splitChAux_no_sep '.' x hx []
          · intro t ht
            rw [show joinData [x] = x from rfl, splitChAux_with_sep '.' x hx t []]
            simp [splitChAux_no_sep '.' t ht []]
      | cons y rest =>
          have htail : ∀ c ∈ y :: rest, '.' ∉ c := by
            intro c hc
            exact hall c (List.mem_cons_of_mem x hc)
          obtain ⟨ihA, ihB⟩ := ih (by simp) htail
          constructor
          · rw [show joinData (x :: y :: rest) = x ++ '.' :: joinData (y :: rest) from rfl,
               splitChAux_with_sep '.' x hx _ []]
            simp [ihA]
          · intro t ht
            rw [show joinData (x :: y :: rest) = x ++ '.' :: joinData (y :: rest) from rfl]
            rw [List.append_assoc, List.cons_append]
            have := splitChAux_with_sep '.' x hx (joinData (y :: rest) ++ '.' :: t) []
            rw [show x ++ ('.' :: (joinData (y :: rest) ++ '.' :: t)) =
                  x ++ '.' :: (joinData (y :: rest) ++ '.' :: t) from rfl, this]
            simp [ihB t ht]

theorem joinComps_append_single (ps : List String) (k : String) :
    joinComps (ps ++ [k]) = flattenKey (joinComps ps) k := by
  simp [joinComps, List.foldl_append]

theorem pySplit_path (ps : List String) (k : String)
    (hps : ∀ p ∈ ps, okKeyB p = true) (hk : okKeyB k = true) :
    pySplit (flattenKey (joinComps ps) k) '.' = ps ++ [k] := by
  obtain ⟨hk1, hk2⟩ := (okKeyB_iff k).1 hk
  cases ps with
  | nil =>
      have h0 : flattenKey (joinComps []) k = k := by simp [joinComps, flattenKey]
      rw [h0]
      unfold pySplit
      rw [splitChAux_no_sep '.' k.data hk2 []]
      simp
  | cons p ps2 =>
      obtain ⟨hp1, hp2⟩ := (okKeyB_iff p).1 (hps p (List.mem_cons_self p ps2))
      have hdata : (joinComps (p :: ps2)).data = joinData ((p :: ps2).map String.data) :=
        joinComps_cons_data p ps2 hp1
      have hne : (joinComps (p :: ps2)).data ≠ [] := by
        rw [hdata]
        simpa using joinData_ne_nil p.data (ps2.map String.data) hp1
      have hkey : (flattenKey (joinComps (p :: ps2)) k).data =
          joinData ((p :: ps2).map String.data) ++ '.' :: k.data := by
        rw [flattenKey_data _ _ hne, hdata]
      have hallmap : ∀ c ∈ (p :: ps2).map String.data, '.' ∉ c := by
        intro c hc
        rw [List.mem_map] at hc
        obtain ⟨q, hq, hqeq⟩ := hc
        obtain ⟨_, hq2⟩ := (okKeyB_iff q).1 (hps q hq)
        exact hqeq ▸ hq2
      obtain ⟨_, hB⟩ := split_joinData ((p :: ps2).map String.data) (by simp) hallmap
      unfold pySplit
      rw [hkey, hB k.data hk2]
      have hmk : (String.mk ∘ String.data) = id := funext fun s => rfl
      simp [hmk]

/-! ## Path creation/update lemmas for `_unflatten_dict` -/

theorem mkNested_append (a b : List String) (v : JVal) :
    mkNested (a ++ b) v = mkNested a (mkNested b v) := by
  induction a with
  | nil => simp [mkNested]
  | cons p ps ih => simp [mkNested, ih]

theorem setPath_nil_create (ps : List String) (p : String) (v : JVal) :
    setPath [] (p :: ps) v = .ok [(p, mkNested ps v)] := by
  induction ps generalizing p with
  | nil => simp [setPath, assocSet, mkNested]
  | cons q rest ih =>
      simp [setPath, assocFind, ih q, assocSet, mkNested]

theorem setPath_spec (ps : List String) (acc cur : List (String × JVal)) (k : String)
    (rest : List String) (v : JVal)
    (hget : getObjPath acc ps = some cur) (hk : assocFind cur k = none) :
    setPath acc (ps ++ k :: rest) v =
      .ok (setObjAt acc ps (cur ++ [(k, mkNested rest v)])) := by
  induction ps generalizing acc cur with
  | nil =>
      simp [getObjPath] at hget
      subst hget
      cases rest with
      | nil =>
          simp [setPath, mkNested, assocSet_append_of_none acc k v hk, setObjAt]
      | cons r rs =>
          simp [setPath, hk, setPath_nil_create rs r v, setObjAt, mkNested,
                assocSet_append_of_none acc k _ hk]
  | cons p ps2 ih =>
      have hstep : ∃ sub, assocFind acc p = some (JVal.obj sub) ∧ getObjPath sub ps2 = some cur := by
        cases hfind : assocFind acc p with
        | none => simp [getObjPath, hfind] at hget
        | some w =>
            cases w with
            | obj sub =>
                refine ⟨sub, rfl, ?_⟩
                simpa [getObjPath, hfind] using hget
            | str s => simp [getObjPath, hfind] at hget
            | num n => simp [getObjPath, hfind] at hget
            | bool b => simp [getObjPath, hfind] at hget
            | null => simp [getObjPath, hfind] at hget
            | arr l => simp [getObjPath, hfind] at hget
      obtain ⟨sub, hfind, hget2⟩ := hstep
      have hrec := ih sub cur hget2 hk
      cases hps2 : ps2 ++ k :: rest with
      | nil => exact absurd hps2 (by simp)
      | cons q tail =>
          rw [show (p :: ps2) ++ k :: rest = p :: (ps2 ++ k :: rest) from rfl, hps2]
          rw [hps2] at hrec
          simp [setPath, hfind, hrec, setObjAt]

theorem getObjPath_setObjAt_self (ps : List String) (acc cur newF : List (String × JVal))
    (hget : getObjPath acc ps = some cur) :
    getObjPath (setObjAt acc ps newF) ps = some newF := by
  induction ps generalizing acc cur with
  | nil => simp [getObjPath, setObjAt]
  | cons p ps2 ih =>
      cases hfind : assocFind acc p with
      | none => simp [getObjPath, hfind] at hget
      | some w =>
          cases w with
          | obj sub =>
              have hget2 : getObjPath sub ps2 = some cur := by
                simpa [getObjPath, hfind] using hget
              simp [setObjAt, hfind, getObjPath, assocFind_assocSet_self, ih sub cur hget2]
          | str s => simp [getObjPath, hfind] at hget
          | num n => simp [getObjPath, hfind] at hget
          | bool b => simp [getObjPath, hfind] at hget
          | null => simp [getObjPath, hfind] at hget
          | arr l => simp [getObjPath, hfind] at hget

theorem setObjAt_setObjAt_self (ps : List String) (acc cur x y : List (String × JVal))
    (hget : getObjPath acc ps = some cur) :
    setObjAt (setObjAt acc ps x) ps y = setObjAt acc ps y := by
  induction ps generalizing acc cur with
  | nil => simp [setObjAt]
  | cons p ps2 ih =>
      cases hfind : assocFind acc p with
      | none => simp [getObjPath, hfind] at hget
      | some w =>
          cases w with
          | obj sub =>
              have hget2 : getObjPath sub ps2 = some cur := by
                simpa [getObjPath, hfind] using hget
              simp [setObjAt, hfind, assocFind_assocSet_self, assocSet_assocSet_self,
                    ih sub cur hget2]
          | str s => simp [getObjPath, hfind] at hget
          | num n => simp [getObjPath, hfind] at hget
          | bool b => simp [getObjPath, hfind] at hget
          | null => simp [getObjPath, hfind] at hget
          | arr l => simp [getObjPath, hfind] at hget

theorem setObjAt_id (ps : List String) (acc cur : List (String × JVal))
    (hget : getObjPath acc ps = some cur) : setObjAt acc ps cur = acc := by
  induction ps generalizing acc cur with
  | nil =>
      simp [getObjPath] at hget
      simp [setObjAt, hget]
  | cons p ps2 ih =>
      cases hfind : assocFind acc p with
      | none => simp [getObjPath, hfind] at hget
      | some w =>
          cases w with
          | obj sub =>
              have hget2 : getObjPath sub ps2 = some cur := by
                simpa [getObjPath, hfind] using hget
              simp [setObjAt, hfind, ih sub cur hget2, assocSet_of_find_eq acc p _ hfind]
          | str s => simp [getObjPath, hfind] at hget
          | num n => simp [getObjPath, hfind] at hget
          | bool b => simp [getObjPath, hfind] at hget
          | null => simp [getObjPath, hfind] at hget
          | arr l => simp [getObjPath, hfind] at hget

theorem getObjPath_append (ps qs : List String) (acc cur : List (String × JVal))
    (hget : getObjPath acc ps = some cur) :
    getObjPath acc (ps ++ qs) = getObjPath cur qs := by
  induction ps generalizing acc cur with
  | nil =>
      simp [getObjPath] at hget
      subst hget
      simp
  | cons p ps2 ih =>
      cases hfind : assocFind acc p with
      | none => simp [getObjPath, hfind] at hget
      | some w =>
          cases w with
          | obj sub =>
              have hget2 : getObjPath sub ps2 = some cur := by
                simpa [getObjPath, hfind] using hget
              simp [getObjPath, hfind, ih sub cur hget2]
          | str s => simp [getObjPath, hfind] at hget
          | num n => simp [getObjPath, hfind] at hget
          | bool b => simp [getObjPath, hfind] at hget
          | null => simp [getObjPath, hfind] at hget
          | arr l => simp [getObjPath, hfind] at hget

theorem setObjAt_append (ps qs : List String) (acc cur newF : List (String × JVal))
    (hget : getObjPath acc ps = some cur) :
    setObjAt acc (ps ++ qs) newF = setObjAt acc ps (setObjAt cur qs newF) := by
  induction ps generalizing acc cur with
  | nil =>
      simp [getObjPath] at hget
      subst hget
      simp [setObjAt]
  | cons p ps2 ih =>
      cases hfind : assocFind acc p with
      | none => simp [getObjPath, hfind] at hget
      | some w =>
          cases w with
          | obj sub =>
              have hget2 : getObjPath sub ps2 = some cur := by
                simpa [getObjPath, hfind] using hget
              simp [setObjAt, hfind, ih sub cur hget2]
          | str s => simp [getObjPath, hfind] at hget
          | num n => simp [getObjPath, hfind] at hget
          | bool b => simp [getObjPath, hfind] at hget
          | null => simp [getObjPath, hfind] at hget
          | arr l => simp [getObjPath, hfind] at hget

theorem getObjPath_cons_of_find (d : List (String × JVal)) (p : String) (ps : List String)
    (sub : List (String × JVal)) (h : assocFind d p = some (JVal.obj sub)) :
    getObjPath d (p :: ps) = getObjPath sub ps := by
  simp [getObjPath, h]

theorem setObjAt_cons_of_find (d : List (String × JVal)) (p : String) (ps : List String)
    (sub newF : List (String × JVal)) (h : assocFind d p = some (JVal.obj sub)) :
    setObjAt d (p :: ps) newF = assocSet d p (JVal.obj (setObjAt sub ps newF)) := by
  simp [setObjAt, h]

theorem getObjPath_chain (ms : List String) (sub cur : List (String × JVal)) (k : String)
    (hk : assocFind cur k = none) :
    getObjPath (cur ++ [(k, mkNested ms (JVal.obj sub))]) (k :: ms) = some sub := by
  induction ms generalizing cur k with
  | nil =>
      simp [getObjPath, assocFind_append_last_self cur k _ hk, mkNested]
  | cons m ms2 ih =>
      have hfind : assocFind (cur ++ [(k, mkNested (m :: ms2) (JVal.obj sub))]) k =
          some (JVal.obj [(m, mkNested ms2 (JVal.obj sub))]) :=
        assocFind_append_last_self cur k _ hk
      rw [getObjPath_cons_of_find _ k (m :: ms2) _ hfind]
      have h2 := ih [] m (by simp [assocFind])
      simpa using h2

theorem setObjAt_chain (ms : List String) (sub cur newF : List (String × JVal)) (k : String)
    (hk : assocFind cur k = none) :
    setObjAt (cur ++ [(k, mkNested ms (JVal.obj sub))]) (k :: ms) newF =
      cur ++ [(k, mkNested ms (JVal.obj newF))] := by
  induction ms generalizing cur k with
  | nil =>
      simp [setObjAt, assocFind_append_last_self cur k _ hk, mkNested,
            assocSet_append_last cur k _ _ hk]
  | cons m ms2 ih =>
      have hfind : assocFind (cur ++ [(k, mkNested (m :: ms2) (JVal.obj sub))]) k =
          some (JVal.obj [(m, mkNested ms2 (JVal.obj sub))]) :=
        assocFind_append_last_self cur k _ hk
      rw [setObjAt_cons_of_find _ k (m :: ms2) _ _ hfind]
      have h2 := ih [] m (by simp [assocFind])
      rw [List.nil_append] at h2
      rw [h2, assocSet_append_last cur k _ _ hk]
      simp [mkNested]

theorem unflattenAux_append (acc : List (String × JVal)) (l1 l2 : List (String × JVal)) :
    unflattenAux acc (l1 ++ l2) =
      match unflattenAux acc l1 with
      | .ok a => unflattenAux a l2
      | .error e => .error e := by
  induction l1 generalizing acc with
  | nil => simp [unflattenAux]
  | cons hd tl ih =>
      obtain ⟨k, v⟩ := hd
      cases hsp : setPath acc (pySplit k '.') v with
      | ok acc2 => simp [unflattenAux, hsp, ih acc2]
      | error e => simp [unflattenAux, hsp]

theorem unflattenAux_append_ok (acc a : List (String × JVal)) (l1 l2 : List (String × JVal))
    (h : unflattenAux acc l1 = .ok a) :
    unflattenAux acc (l1 ++ l2) = unflattenAux a l2 := by
  rw [unflattenAux_append, h]

theorem goodFields_cons (k : String) (v : JVal) (rest : List (String × JVal))
    (h : goodFields ((k, v) :: rest) = true) :
    okKeyB k = true ∧ (∀ kv ∈ rest, kv.1 ≠ k) ∧ goodFields rest = true ∧
      (∀ sub, v = JVal.obj sub → sub ≠ [] ∧ goodFields sub = true) := by
  cases v with
  | obj sub =>
      simp only [goodFields, Bool.and_eq_true, List.all_eq_true, bne_iff_ne,
                 Bool.not_eq_true'] at h
      obtain ⟨⟨⟨⟨hok, hall⟩, hsub⟩, hgs⟩, hgr⟩ := h
      refine ⟨hok, hall, hgr, ?_⟩
      intro sub2 heq
      injection heq with h2
      subst h2
      refine ⟨?_, hgs⟩
      intro hnil
      subst hnil
      simp at hsub
  | str s =>
      simp only [goodFields, Bool.and_eq_true, List.all_eq_true, bne_iff_ne] at h
      obtain ⟨⟨hok, hall⟩, hgr⟩ := h
      exact ⟨hok, hall, hgr, fun sub heq => nomatch heq⟩
  | num n =>
      simp only [goodFields, Bool.and_eq_true, List.all_eq_true, bne_iff_ne] at h
      obtain ⟨⟨hok, hall⟩, hgr⟩ := h
      exact ⟨hok, hall, hgr, fun sub heq => nomatch heq⟩
  | bool b =>
      simp only [goodFields, Bool.and_eq_true, List.all_eq_true, bne_iff_ne] at h
      obtain ⟨⟨hok, hall⟩, hgr⟩ := h
      exact ⟨hok, hall, hgr, fun sub heq => nomatch heq⟩
  | null =>
      simp only [goodFields, Bool.and_eq_true, List.all_eq_true, bne_iff_ne] at h
      obtain ⟨⟨hok, hall⟩, hgr⟩ := h
      exact ⟨hok, hall, hgr, fun sub heq => nomatch heq⟩
  | arr l =>
      simp only [goodFields, Bool.and_eq_true, List.all_eq_true, bne_iff_ne] at h
      obtain ⟨⟨hok, hall⟩, hgr⟩ := h
      exact ⟨hok, hall, hgr, fun sub heq => nomatch heq⟩

theorem roundTripAux : ∀ (n : ℕ) (fields : List (String × JVal)), sizeOf fields ≤ n →
    goodFields fields = true →
    ∀ (ps : List String) (acc cur : List (String × JVal)),
      (∀ p ∈ ps, okKeyB p = true) → getObjPath acc ps = some cur →
      ((∀ kv ∈ fields, assocFind cur kv.1 = none) →
        unflattenAux acc (flattenFields fields (joinComps ps)) =
          .ok (setObjAt acc ps (cur ++ fields))) ∧
      (∀ (k : String) (ms : List String), okKeyB k = true → (∀ m ∈ ms, okKeyB m = true) →
        assocFind cur k = none → fields ≠ [] →
        unflattenAux acc (flattenFields fields (joinComps (ps ++ k :: ms))) =
          .ok (setObjAt acc ps (cur ++ [(k, mkNested ms (JVal.obj fields))]))) := by
  intro n
  induction n with
  | zero =>
      intro fields hsz
      exfalso
      cases fields <;> simp at hsz
  | succ n ihn =>
      intro fields hsz hgood ps acc cur hps hget
      cases fields with
      | nil =>
          constructor
          · intro _
            simp [flattenFields, unflattenAux, setObjAt_id ps acc cur hget]
          · intro k ms _ _ _ hne
            exact absurd rfl hne
      | cons hd rest =>
          obtain ⟨k1, v1⟩ := hd
          obtain ⟨hk1, hdist, hgrest, hobj⟩ := goodFields_cons k1 v1 rest hgood
          have hszrest : sizeOf rest ≤ n := by
            simp only [List.cons.sizeOf_spec, Prod.mk.sizeOf_spec] at hsz
            omega
          constructor
          · -- part A: extend the existing object at path ps
            intro hdisj
            have hcurk1 : assocFind cur k1 = none := hdisj (k1, v1) (List.mem_cons_self _ _)
            have contA : ∀ w1 : JVal,
                unflattenAux (setObjAt acc ps (cur ++ [(k1, w1)]))
                    (flattenFields rest (joinComps ps)) =
                  .ok (setObjAt acc ps (cur ++ (k1, w1) :: rest)) := by
              intro w1
              have hget2 : getObjPath (setObjAt acc ps (cur ++ [(k1, w1)])) ps =
                  some (cur ++ [(k1, w1)]) := getObjPath_setObjAt_self ps acc cur _ hget
              have hdisj2 : ∀ kv ∈ rest, assocFind (cur ++ [(k1, w1)]) kv.1 = none := by
                intro kv hkv
                have h1 : assocFind cur kv.1 = none := hdisj kv (List.mem_cons_of_mem _ hkv)
                rw [assocFind_append_of_none _ _ _ h1]
                simp [assocFind, Ne.symm (hdist kv hkv)]
              have hA := (ihn rest hszrest hgrest ps _ _ hps hget2).1 hdisj2
              rw [hA, setObjAt_setObjAt_self ps acc cur _ _ hget]
              simp
            have leafA : ∀ w1 : JVal,
                flattenFields ((k1, w1) :: rest) (joinComps ps) =
                  (flattenKey (joinComps ps) k1, w1) :: flattenFields rest (joinComps ps) →
                unflattenAux acc (flattenFields ((k1, w1) :: rest) (joinComps ps)) =
                  .ok (setObjAt acc ps (cur ++ (k1, w1) :: rest)) := by
              intro w1 heq
              rw [heq]
              have hsp : setPath acc (pySplit (flattenKey (joinComps ps) k1) '.') w1 =
                  .ok (setObjAt acc ps (cur ++ [(k1, mkNested [] w1)])) := by
                rw [pySplit_path ps k1 hps hk1]
                exact setPath_spec ps acc cur k1 [] w1 hget hcurk1
              simp only [unflattenAux, hsp]
              simpa [mkNested] using contA w1
            cases v1 with
            | obj sub =>
                obtain ⟨hsubne, hsubgood⟩ := hobj sub rfl
                have hszsub : sizeOf sub ≤ n := by
                  simp only [List.cons.sizeOf_spec, Prod.mk.sizeOf_spec,
                             JVal.obj.sizeOf_spec] at hsz
                  omega
                have hB := (ihn sub hszsub hsubgood ps acc cur hps hget).2 k1 []
                  hk1 (by simp) hcurk1 hsubne
                have hB2 : unflattenAux acc (flattenFields sub (joinComps (ps ++ [k1]))) =
                    .ok (setObjAt acc ps (cur ++ [(k1, JVal.obj sub)])) := by
                  simpa [mkNested] using hB
                rw [show flattenFields ((k1, JVal.obj sub) :: rest) (joinComps ps) =
                      flattenFields sub (flattenKey (joinComps ps) k1) ++
                        flattenFields rest (joinComps ps) from by simp [flattenFields]]
                rw [show flattenKey (joinComps ps) k1 = joinComps (ps ++ [k1]) from
                      (joinComps_append_single ps k1).symm]
                rw [unflattenAux_append_ok _ _ _ _ hB2]
                exact contA (JVal.obj sub)
            | str s => exact leafA (JVal.str s) (by simp [flattenFields])
            | num m => exact leafA (JVal.num m) (by simp [flattenFields])
            | bool b => exact leafA (JVal.bool b) (by simp [flattenFields])
            | null => exact leafA JVal.null (by simp [flattenFields])
            | arr l => exact leafA (JVal.arr l) (by simp [flattenFields])
          · -- part B: create the chain k :: ms below path ps
            intro k ms hkok hmsok hcurk _
            have hps2 : ∀ p ∈ ps ++ k :: ms, okKeyB p = true := by
              intro p hp
              rcases List.mem_append.1 hp with h1 | h2
              · exact hps p h1
              · rcases List.mem_cons.1 h2 with h3 | h4
                · exact h3 ▸ hkok
                · exact hmsok p h4
            have contB : ∀ w1 : JVal,
                unflattenAux
                    (setObjAt acc ps (cur ++ [(k, mkNested ms (JVal.obj [(k1, w1)]))]))
                    (flattenFields rest (joinComps (ps ++ k :: ms))) =
                  .ok (setObjAt acc ps
                    (cur ++ [(k, mkNested ms (JVal.obj ((k1, w1) :: rest)))])) := by
              intro w1
              have hget2 : getObjPath
                  (setObjAt acc ps (cur ++ [(k, mkNested ms (JVal.obj [(k1, w1)]))])) ps =
                  some (cur ++ [(k, mkNested ms (JVal.obj [(k1, w1)]))]) :=
                getObjPath_setObjAt_self ps acc cur _ hget
              have hget3 : getObjPath
                  (setObjAt acc ps (cur ++ [(k, mkNested ms (JVal.obj [(k1, w1)]))]))
                  (ps ++ k :: ms) = some [(k1, w1)] := by
                rw [getObjPath_append ps (k :: ms) _ _ hget2]
                exact getObjPath_chain ms [(k1, w1)] cur k hcurk
              have hdisj2 : ∀ kv ∈ rest, assocFind [(k1, w1)] kv.1 = none := by
                intro kv hkv
                simp [assocFind, Ne.symm (hdist kv hkv)]
              have hA := (ihn rest hszrest hgrest (ps ++ k :: ms) _ _ hps2 hget3).1 hdisj2
              rw [hA]
              rw [setObjAt_append ps (k :: ms) _ _ _ hget2]
              rw [show ([(k1, w1)] ++ rest) = (k1, w1) :: rest from rfl]
              rw [setObjAt_chain ms [(k1, w1)] cur ((k1, w1) :: rest) k hcurk]
              rw [setObjAt_setObjAt_self ps acc cur _ _ hget]
            have leafB : ∀ w1 : JVal,
                flattenFields ((k1, w1) :: rest) (joinComps (ps ++ k :: ms)) =
                  (flattenKey (joinComps (ps ++ k :: ms)) k1, w1) ::
                    flattenFields rest (joinComps (ps ++ k :: ms)) →
                unflattenAux acc (flattenFields ((k1, w1) :: rest) (joinComps (ps ++ k :: ms))) =
                  .ok (setObjAt acc ps
                    (cur ++ [(k, mkNested ms (JVal.obj ((k1, w1) :: rest)))])) := by
              intro w1 heq
              rw [heq]
              have hsp : setPath acc
                  (pySplit (flattenKey (joinComps (ps ++ k :: ms)) k1) '.') w1 =
                  .ok (setObjAt acc ps (cur ++ [(k, mkNested ms (JVal.obj [(k1, w1)]))])) := by
                rw [pySplit_path (ps ++ k :: ms) k1 hps2 hk1]
                rw [show (ps ++ k :: ms) ++ [k1] = ps ++ k :: (ms ++ [k1]) from by simp]
                rw [setPath_spec ps acc cur k (ms ++ [k1]) w1 hget hcurk]
                rw [mkNested_append ms [k1] w1]
                rw [show mkNested [k1] w1 = JVal.obj [(k1, w1)] from by simp [mkNested]]
              simp only [unflattenAux, hsp]
              exact contB w1
            cases v1 with
            | obj sub =>
                obtain ⟨hsubne, hsubgood⟩ := hobj sub rfl
                have hszsub : sizeOf sub ≤ n := by
                  simp only [List.cons.sizeOf_spec, Prod.mk.sizeOf_spec,
                             JVal.obj.sizeOf_spec] at hsz
                  omega
                have hmsok2 : ∀ m ∈ ms ++ [k1], okKeyB m = true := by
                  intro m hm
                  rcases List.mem_append.1 hm with h1 | h2
                  · exact hmsok m h1
                  · rcases List.mem_singleton.1 h2 with h3
                    exact h3 ▸ hk1
                have hB := (ihn sub hszsub hsubgood ps acc cur hps hget).2 k (ms ++ [k1])
                  hkok hmsok2 hcurk hsubne
                have hB2 : unflattenAux acc
                    (flattenFields sub (joinComps (ps ++ k :: (ms ++ [k1])))) =
                    .ok (setObjAt acc ps
                      (cur ++ [(k, mkNested ms (JVal.obj [(k1, JVal.obj sub)]))])) := by
                  rw [hB, mkNested_append ms [k1] (JVal.obj sub)]
                  rw [show mkNested [k1] (JVal.obj sub) = JVal.obj [(k1, JVal.obj sub)] from
                        by simp [mkNested]]
                rw [show flattenFields ((k1, JVal.obj sub) :: rest) (joinComps (ps ++ k :: ms)) =
                      flattenFields sub (flattenKey (joinComps (ps ++ k :: ms)) k1) ++
                        flattenFields rest (joinComps (ps ++ k :: ms)) from
                      by simp [flattenFields]]
                rw [show flattenKey (joinComps (ps ++ k :: ms)) k1 =
                      joinComps (ps ++ k :: (ms ++ [k1])) from by
                      rw [← joinComps_append_single (ps ++ k :: ms) k1]
                      simp]
                rw [unflattenAux_append_ok _ _ _ _ hB2]
                exact contB (JVal.obj sub)
            | str s => exact leafB (JVal.str s) (by simp [flattenFields])
            | num m => exact leafB (JVal.num m) (by simp [flattenFields])
            | bool b => exact leafB (JVal.bool b) (by simp [flattenFields])
            | null => exact leafB JVal.null (by simp [flattenFields])
            | arr l => exact leafB (JVal.arr l) (by simp [flattenFields])

/-- C2 counterexample: the claim quantifies over every map-only nested
structure with unique leaf paths, but a key containing the separator breaks
the round trip: flattening leaves the single pair untouched while
unflattening splits its key, so the map with the one dotted key does not
round-trip. -/
theorem claim_C2_counterexample :
    unflattenFlat (flattenFields [("a.b", JVal.num 1)] "") ≠
      Except.ok [("a.b", JVal.num 1)] := by
  have h1 : flattenFields [("a.b", JVal.num 1)] "" = [("a.b", JVal.num 1)] := by
    simp [flattenFields, flattenKey]
  rw [h1]
  intro h
  simp [unflattenFlat, unflattenAux, setPath, pySplit, splitChAux, assocSet, assocFind] at h

/-- C2 (amended): for every map-only nested structure whose keys at every
level are nonempty, dot-free and pairwise distinct, and whose nested maps are
all nonempty (lists remaining opaque leaves), `unflatten(flatten(x)) = x`. -/
theorem claim_C2_roundtrip (fields : List (String × JVal))
    (h : goodFields fields = true) :
    unflattenFlat (flattenFields fields "") = .ok fields := by
  have hmain := (roundTripAux (sizeOf fields) fields le_rfl h [] [] []
    (by simp) (by simp [getObjPath])).1 (by simp [assocFind])
  have hj : joinComps [] = "" := rfl
  rw [hj] at hmain
  simpa [unflattenFlat, setObjAt] using hmain

/-- C2 witness: a concrete two-level structure satisfying the amended
hypotheses round-trips. -/
theorem claim_C2_witness :
    goodFields [("a", JVal.obj [("b", JVal.num 1), ("c", JVal.str "x")]), ("d", JVal.arr [JVal.num 2])] = true ∧
    unflattenFlat (flattenFields
        [("a", JVal.obj [("b", JVal.num 1), ("c", JVal.str "x")]), ("d", JVal.arr [JVal.num 2])] "") =
      .ok [("a", JVal.obj [("b", JVal.num 1), ("c", JVal.str "x")]), ("d", JVal.arr [JVal.num 2])] :=
  ⟨by simp [goodFields, okKeyB],
   claim_C2_roundtrip _ (by simp [goodFields, okKeyB])⟩

/-! ## Validator lemmas (C3) -/

theorem fieldStep_score_eq (data : JVal) (name : String) (fc : FieldCfg) :
    (fieldStep data name fc).1 = claimTierScoreAmended data name fc := by
  unfold fieldStep claimTierScoreAmended
  cases hfv : pyGetField data name with
  | none => by_cases hreq : (fc.required && isFalsyOpt none) = true <;> simp [hreq]
  | some v =>
      by_cases hreq : (fc.required && isFalsyOpt (some v)) = true
      · simp [hreq]
      · cases v <;> simp [hreq] <;> split_ifs <;> simp

theorem validateFold (data : JVal) (fields : List (String × FieldCfg)) (a : ℚ)
    (is : List String) :
    fields.foldl (fun (acc : ℚ × List String) nf =>
        let st := fieldStep data nf.1 nf.2
        (acc.1 + st.1, acc.2 ++ st.2)) (a, is) =
      (a + (fields.map (fun nf => (fieldStep data nf.1 nf.2).1)).sum,
       is ++ (fields.map (fun nf => (fieldStep data nf.1 nf.2).2)).flatten) := by
  induction fields generalizing a is with
  | nil => simp
  | cons hd tl ih => simp [ih, add_assoc]

theorem fieldStep_score_nonneg (data : JVal) (name : String) (fc : FieldCfg) :
    0 ≤ (fieldStep data name fc).1 := by
  unfold fieldStep
  cases hfv : pyGetField data name with
  | none => by_cases hreq : (fc.required && isFalsyOpt none) = true <;> simp [hreq]
  | some v =>
      by_cases hreq : (fc.required && isFalsyOpt (some v)) = true
      · simp [hreq]
      · cases v <;> simp [hreq] <;> split_ifs <;> norm_num

theorem fieldStep_score_le_one (data : JVal) (name : String) (fc : FieldCfg) :
    (fieldStep data name fc).1 ≤ 1 := by
  unfold fieldStep
  cases hfv : pyGetField data name with
  | none => by_cases hreq : (fc.required && isFalsyOpt none) = true <;> simp [hreq]
  | some v =>
      by_cases hreq : (fc.required && isFalsyOpt (some v)) = true
      · simp [hreq]
      · cases v <;> simp [hreq] <;> split_ifs <;> norm_num

theorem scoreSum_nonneg (data : JVal) (fields : List (String × FieldCfg)) :
    0 ≤ (fields.map (fun nf => (fieldStep data nf.1 nf.2).1)).sum := by
  induction fields with
  | nil => simp
  | cons hd tl ih =>
      simp only [List.map_cons, List.sum_cons]
      have := fieldStep_score_nonneg data hd.1 hd.2
      linarith

theorem scoreSum_le_card (data : JVal) (fields : List (String × FieldCfg)) :
    (fields.map (fun nf => (fieldStep data nf.1 nf.2).1)).sum ≤ (fields.length : ℚ) := by
  induction fields with
  | nil => simp
  | cons hd tl ih =>
      simp only [List.map_cons, List.sum_cons, List.length_cons]
      have := fieldStep_score_le_one data hd.1 hd.2
      push_cast
      linarith

/-- C3 counterexample: for a single non-required `number` field absent from
the result, the code scores the field 0 and returns confidence 0, while the
claim's tier rules ("numeric fields 1.0 if numeric else 0.5") assign 0.5,
predicting confidence 0.5/1; the claimed formula therefore fails. -/
theorem claim_C3_counterexample :
    (validateFields (JVal.obj []) [("amount", FieldCfg.mk "number" false)]).2.1 = 0 ∧
    claimTierScore (JVal.obj []) "amount" (FieldCfg.mk "number" false) = 1/2 ∧
    (0 : ℚ) ≠ (1/2) / (1 : ℚ) := by
  refine ⟨?_, ?_, by norm_num⟩
  · simp [validateFields, fieldStep, pyGetField, assocFind, isFalsyOpt]
  · simp [claimTierScore, pyGetField, assocFind]

/-- C3 (amended): the validator's confidence equals the sum of per-field
scores divided by the number of configured fields, where the per-field score
follows the claim's tiers extended by the code's rules for the uncovered
cases (absent/null field scores 0, required falsy field scores 0, a field of
any other configured type scores 0); confidence always lies in `[0, 1]`;
`is_valid` holds exactly when confidence is at least 0.6 and at most 2
issues were recorded; an empty field configuration yields confidence 0 and
`is_valid = false`. -/
theorem claim_C3_validator (data : JVal) (fields : List (String × FieldCfg)) :
    ((validateFields data fields).2.1 =
      if fields.length = 0 then 0
      else (fields.map (fun nf => claimTierScoreAmended data nf.1 nf.2)).sum /
        (fields.length : ℚ)) ∧
    0 ≤ (validateFields data fields).2.1 ∧
    (validateFields data fields).2.1 ≤ 1 ∧
    ((validateFields data fields).1 = true ↔
      ((3 : ℚ)/5 ≤ (validateFields data fields).2.1 ∧
        (validateFields data fields).2.2.length ≤ 2)) ∧
    (fields = [] → (validateFields data fields).2.1 = 0 ∧
      (validateFields data fields).1 = false) := by
  by_cases hnil : fields = []
  · subst hnil
    refine ⟨by simp [validateFields], by simp [validateFields], by simp [validateFields],
            ?_, fun _ => ⟨by simp [validateFields], by simp [validateFields]⟩⟩
    constructor
    · intro h
      simp [validateFields] at h
    · rintro ⟨h1, _⟩
      simp [validateFields] at h1
      norm_num at h1
  · have hpos : 0 < fields.length := List.length_pos.2 hnil
    have hposQ : (0 : ℚ) < (fields.length : ℚ) := by exact_mod_cast hpos
    have hfold := validateFold data fields 0 []
    have hsum0 := scoreSum_nonneg data fields
    have hsumle := scoreSum_le_card data fields
    have hmapeq : (fields.map (fun nf => (fieldStep data nf.1 nf.2).1)) =
        (fields.map (fun nf => claimTierScoreAmended data nf.1 nf.2)) := by
      simp only [fieldStep_score_eq]
    have hval : validateFields data fields =
        ((decide ((3 : ℚ)/5 ≤
            (fields.map (fun nf => (fieldStep data nf.1 nf.2).1)).sum / (fields.length : ℚ)) &&
          decide (((fields.map (fun nf => (fieldStep data nf.1 nf.2).2)).flatten).length ≤ 2)),
         (fields.map (fun nf => (fieldStep data nf.1 nf.2).1)).sum / (fields.length : ℚ),
         (fields.map (fun nf => (fieldStep data nf.1 nf.2).2)).flatten) := by
      unfold validateFields
      rw [hfold]
      simp [hpos]
    rw [hval]
    refine ⟨?_, ?_, ?_, ?_, fun h => absurd h hnil⟩
    · rw [if_neg (Nat.pos_iff_ne_zero.1 hpos), hmapeq]
    · exact div_nonneg hsum0 (le_of_lt hposQ)
    · rw [div_le_one hposQ]
      exact hsumle
    · simp [Bool.and_eq_true, decide_eq_true_iff]

/-- C3 witness: the amended theorem applied to the empty configuration
discharges its zero-field implication. -/
theorem claim_C3_witness :
    (validateFields (JVal.obj []) ([] : List (String × FieldCfg))).2.1 = 0 ∧
    (validateFields (JVal.obj []) ([] : List (String × FieldCfg))).1 = false :=
  (claim_C3_validator (JVal.obj []) []).2.2.2.2 rfl

/-! ## Merge lemmas (C1) -/

theorem assocFind_mergeField_ne (base : List (String × JVal)) (k k' : String) (v : JVal)
    (h : k' ≠ k) : assocFind (mergeField base k v) k' = assocFind base k' := by
  unfold mergeField
  split_ifs
  · exact assocFind_assocSet_ne base k k' v h
  · rfl

theorem assocFind_mergeField_self (base : List (String × JVal)) (k : String) (v : JVal) :
    assocFind (mergeField base k v) k =
      if shouldReplace (assocFind base k) v then some v else assocFind base k := by
  unfold mergeField
  split_ifs with h
  · exact assocFind_assocSet_self base k v
  · rfl

theorem assocFind_applyCandidate_notmem (fields : List (String × JVal))
    (base : List (String × JVal)) (k : String) (h : ∀ kv ∈ fields, kv.1 ≠ k) :
    assocFind (applyCandidate base fields) k = assocFind base k := by
  induction fields generalizing base with
  | nil => simp [applyCandidate]
  | cons hd tl ih =>
      have h1 : hd.1 ≠ k := h hd (List.mem_cons_self _ _)
      have h2 : ∀ kv ∈ tl, kv.1 ≠ k := fun kv hkv => h kv (List.mem_cons_of_mem _ hkv)
      calc assocFind (applyCandidate base (hd :: tl)) k
          = assocFind (applyCandidate (mergeField base hd.1 hd.2) tl) k := by
            simp [applyCandidate]
        _ = assocFind (mergeField base hd.1 hd.2) k := ih _ h2
        _ = assocFind base k := assocFind_mergeField_ne base hd.1 k hd.2 (Ne.symm h1)

theorem applyCandidate_value (fields : List (String × JVal))
    (base : List (String × JVal)) (k : String) (v : JVal)
    (hdist : (fields.map Prod.fst).Nodup) (hmem : (k, v) ∈ fields) :
    assocFind (applyCandidate base fields) k =
      if shouldReplace (assocFind base k) v then some v else assocFind base k := by
  induction fields generalizing base with
  | nil => simp at hmem
  | cons hd tl ih =>
      obtain ⟨k1, v1⟩ := hd
      simp only [List.map_cons, List.nodup_cons] at hdist
      obtain ⟨hnotin, hdist2⟩ := hdist
      rcases List.mem_cons.1 hmem with heq | hmem2
      · injection heq with hk hv
        subst hk
        subst hv
        have h2 : ∀ kv ∈ tl, kv.1 ≠ k := by
          intro kv hkv hbad
          exact hnotin (hbad ▸ List.mem_map_of_mem Prod.fst hkv)
        calc assocFind (applyCandidate base ((k, v) :: tl)) k
            = assocFind (applyCandidate (mergeField base k v) tl) k := by
              simp [applyCandidate]
          _ = assocFind (mergeField base k v) k := assocFind_applyCandidate_notmem tl _ k h2
          _ = _ := assocFind_mergeField_self base k v
      · have hk1 : k ≠ k1 := by
          intro hbad
          exact hnotin (hbad ▸ List.mem_map_of_mem Prod.fst hmem2)
        calc assocFind (applyCandidate base ((k1, v1) :: tl)) k
            = assocFind (applyCandidate (mergeField base k1 v1) tl) k := by
              simp [applyCandidate]
          _ = if shouldReplace (assocFind (mergeField base k1 v1) k) v then some v
              else assocFind (mergeField base k1 v1) k := ih _ hdist2 hmem2
          _ = _ := by rw [assocFind_mergeField_ne base k1 k v1 hk1]

theorem shouldReplace_iff (cur : Option JVal) (v : JVal) :
    shouldReplace cur v = true ↔
      (((cur = none ∨ cur = some JVal.null) ∧ v ≠ JVal.null) ∨
       (∃ s t, cur = some (JVal.str s) ∧ v = JVal.str t ∧ containsMarker s = true) ∨
       (∃ s t, cur = some (JVal.str s) ∧ v = JVal.str t ∧ trimmedLen s < trimmedLen t)) := by
  unfold shouldReplace
  cases cur with
  | none => cases v <;> simp
  | some w => cases w <;> cases v <;> simp

/-- C1 counterexample: merging a base whose field value is the error string
`"not found"` with a lower-confidence candidate offering `"n/a"` replaces the
value even though the candidate also contains an error marker and is
strictly shorter — the code's rule (b) does not require the candidate to be
error-free, contradicting the claim's "only if" conditions. -/
theorem claim_C1_counterexample :
    mergeSorted "data"
        [(JVal.obj [("data", JVal.obj [("g", JVal.str "not found")])], 9/10),
         (JVal.obj [("data", JVal.obj [("g", JVal.str "n/a")])], 1/2)] =
      .ok (some (JVal.obj [("data", JVal.obj [("g", JVal.str "n/a")])])) ∧
    containsMarker "n/a" = true ∧
    trimmedLen "n/a" ≤ trimmedLen "not found" := by
  refine ⟨rfl, by decide, by decide⟩

/-- C1 (amended): for every base mapping and candidate field list with
distinct keys, the merged value at a field carried by the candidate is the
candidate's value exactly when the replacement condition holds, and that
condition holds iff (a) the base value is missing/None and the candidate's
is not None, (b) both are strings and the base contains an error marker (the
candidate may contain one too — amendment), or (c) both are strings and the
candidate's trimmed length strictly exceeds the base's; consequently a
present non-error string base is never replaced by a string of smaller or
equal trimmed length, and a numeric base value is never replaced. -/
theorem claim_C1_merge (base fields : List (String × JVal)) (k : String) (v : JVal)
    (hdist : (fields.map Prod.fst).Nodup) (hmem : (k, v) ∈ fields) :
    (assocFind (applyCandidate base fields) k =
      if shouldReplace (assocFind base k) v then some v else assocFind base k) ∧
    (shouldReplace (assocFind base k) v = true ↔
      (((assocFind base k = none ∨ assocFind base k = some JVal.null) ∧ v ≠ JVal.null) ∨
       (∃ s t, assocFind base k = some (JVal.str s) ∧ v = JVal.str t ∧
          containsMarker s = true) ∨
       (∃ s t, assocFind base k = some (JVal.str s) ∧ v = JVal.str t ∧
          trimmedLen s < trimmedLen t))) ∧
    (∀ s, assocFind base k = some (JVal.str s) → containsMarker s = false →
      ∀ t, v = JVal.str t → trimmedLen t ≤ trimmedLen s →
      assocFind (applyCandidate base fields) k = some (JVal.str s)) ∧
    (∀ n : Int, assocFind base k = some (JVal.num n) →
      assocFind (applyCandidate base fields) k = some (JVal.num n)) := by
  have hval := applyCandidate_value fields base k v hdist hmem
  refine ⟨hval, shouldReplace_iff _ v, ?_, ?_⟩
  · intro s hs hmark t hv hle
    subst hv
    have hrep : shouldReplace (assocFind base k) (JVal.str t) = false := by
      rw [hs]
      simp [shouldReplace, hmark]
      omega
    rw [hval, hrep]
    simp [hs]
  · intro n hn
    have hrep : shouldReplace (assocFind base k) v = false := by
      rw [hn]
      cases v <;> simp [shouldReplace]
    rw [hval, hrep]
    simp [hn]

/-- C1 witness: a longer candidate string replaces a shorter non-error base
value, by the amended theorem at a concrete input. -/
theorem claim_C1_witness :
    assocFind (applyCandidate [("g", JVal.str "hi")] [("g", JVal.str "longer value")]) "g" =
      some (JVal.str "longer value") := by
  have h := (claim_C1_merge [("g", JVal.str "hi")] [("g", JVal.str "longer value")]
    "g" (JVal.str "longer value") (by simp) (by simp)).1
  rw [h]
  rfl

/-- C10: `_intelligent_merge` sorts its argument list in place — after a
call on a nonempty list, the caller's list is a permutation of the input
ordered by descending confidence, and there are inputs the call does not
leave unchanged. -/
theorem claim_C10_sort (objectName : String) (extractions : List (JVal × ℚ))
    (h : extractions ≠ []) :
    ((intelligentMergeRun objectName extractions).2.Perm extractions ∧
     List.Pairwise (fun a b : JVal × ℚ => b.2 ≤ a.2)
       (intelligentMergeRun objectName extractions).2) ∧
    (∃ l : List (JVal × ℚ), l ≠ [] ∧ (intelligentMergeRun objectName l).2 ≠ l) := by
  have hrun : ∀ l : List (JVal × ℚ), l ≠ [] →
      (intelligentMergeRun objectName l).2 = l.mergeSort confDescB := by
    intro l hl
    cases l with
    | nil => exact absurd rfl hl
    | cons a tl => simp [intelligentMergeRun]
  have hsorted : ∀ l : List (JVal × ℚ),
      List.Pairwise (fun a b : JVal × ℚ => b.2 ≤ a.2) (l.mergeSort confDescB) := by
    intro l
    have htrans : ∀ a b c : JVal × ℚ,
        confDescB a b = true → confDescB b c = true → confDescB a c = true := by
      intro a b c h1 h2
      simp only [confDescB, decide_eq_true_eq] at h1 h2 ⊢
      exact le_trans h2 h1
    have htotal : ∀ a b : JVal × ℚ, (confDescB a b || confDescB b a) = true := by
      intro a b
      simp only [confDescB, Bool.or_eq_true, decide_eq_true_eq]
      exact le_total b.2 a.2
    have hs := List.sorted_mergeSort htrans htotal l
    refine hs.imp ?_
    intro a b hab
    simpa [confDescB] using hab
  refine ⟨⟨?_, ?_⟩, ?_⟩
  · rw [hrun extractions h]
    exact List.mergeSort_perm extractions confDescB
  · rw [hrun extractions h]
    exact hsorted extractions
  · refine ⟨[(JVal.null, 0), (JVal.null, 1)], by simp, ?_⟩
    intro hbad
    have hp := hsorted [(JVal.null, 0), (JVal.null, 1)]
    rw [← hrun _ (by simp), hbad] at hp
    simp [List.pairwise_cons] at hp
    norm_num at hp

/-- C10 witness: the theorem applied to a concrete unsorted two-element
list. -/
theorem claim_C10_witness :
    ((intelligentMergeRun "d" [(JVal.null, 1/5), (JVal.null, 9/10)]).2.Perm
        [(JVal.null, 1/5), (JVal.null, 9/10)] ∧
      List.Pairwise (fun a b : JVal × ℚ => b.2 ≤ a.2)
        (intelligentMergeRun "d" [(JVal.null, 1/5), (JVal.null, 9/10)]).2) ∧
    (∃ l : List (JVal × ℚ), l ≠ [] ∧ (intelligentMergeRun "d" l).2 ≠ l) :=
  claim_C10_sort "d" [(JVal.null, 1/5), (JVal.null, 9/10)] (by simp)

/-! ## Retry controller lemmas (C5, C6) -/

theorem smartRetryGo_keeps_some {α : Type} (truthy : α → Bool) (val : α → Bool × ℚ) :
    ∀ (attempts : List (Option α)) (x : α) (bc : ℚ),
      (smartRetryGo truthy val attempts (some x, bc)).1.1.isSome = true := by
  intro attempts
  induction attempts with
  | nil => intro x bc; simp [smartRetryGo]
  | cons a rest ih =>
      intro x bc
      cases a with
      | none => simpa [smartRetryGo] using ih x bc
      | some y =>
          by_cases hty : truthy y = true
          · by_cases hv : (val y).1 = true
            · by_cases hc : bc < (val y).2
              · by_cases hth : (9 : ℚ)/10 < (val y).2
                · simp [smartRetryGo, hty, hv, hc, hth]
                · simpa [smartRetryGo, hty, hv, hc, hth] using ih y (val y).2
              · simpa [smartRetryGo, hty, hv, hc] using ih x bc
            · by_cases hc : bc < (val y).2
              · simpa [smartRetryGo, hty, hv, hc] using ih y (val y).2
              · simpa [smartRetryGo, hty, hv, hc] using ih x bc
          · simpa [smartRetryGo, hty] using ih x bc

/-- C5 counterexample: in the advanced agent's retry loop, a non-null
attempt with confidence 0.8 (strictly above the held best 0.0) that fails
validation does not replace the held best — the round still holds no
extraction afterwards, contradicting the claimed replace-regardless-of-
validity behaviour. -/
theorem claim_C5_counterexample :
    (advancedRetryGo (fun _ : ℕ => true) (fun _ => (false, 4/5)) [some 0]
      (none, 0)).1 = (none, 0) := by
  simp [advancedRetryGo]

/-- C5 (amended): in the expert agent's retry loop, any truthy attempt whose
confidence strictly exceeds the held best replaces it regardless of
validity (and the held extraction stays non-null afterwards); in the
advanced agent's retry loop an invalid attempt never changes the held best,
whatever its confidence. -/
theorem claim_C5_keep_best :
    (∀ (α : Type) (truthy : α → Bool) (val : α → Bool × ℚ) (x : α)
        (rest : List (Option α)) (be : Option α) (bc : ℚ),
      truthy x = true → bc < (val x).2 →
      (smartRetryGo truthy val (some x :: rest) (be, bc) =
        if (val x).1 = true ∧ (9 : ℚ)/10 < (val x).2 then ((some x, (val x).2), 1)
        else ((smartRetryGo truthy val rest (some x, (val x).2)).1,
              (smartRetryGo truthy val rest (some x, (val x).2)).2 + 1)) ∧
      (smartRetryGo truthy val (some x :: rest) (be, bc)).1.1.isSome = true) ∧
    (∀ (α : Type) (truthy : α → Bool) (val : α → Bool × ℚ) (x : α)
        (rest : List (Option α)) (be : Option α) (bc : ℚ),
      truthy x = true → (val x).1 = false →
      advancedRetryGo truthy val (some x :: rest) (be, bc) =
        ((advancedRetryGo truthy val rest (be, bc)).1,
         (advancedRetryGo truthy val rest (be, bc)).2 + 1)) := by
  constructor
  · intro α truthy val x rest be bc htr hconf
    constructor
    · by_cases hv : (val x).1 = true
      · by_cases hth : (9 : ℚ)/10 < (val x).2
        · simp [smartRetryGo, htr, hconf, hv, hth]
        · simp [smartRetryGo, htr, hconf, hv, hth]
      · simp [smartRetryGo, htr, hconf, hv]
    · by_cases hv : (val x).1 = true
      · by_cases hth : (9 : ℚ)/10 < (val x).2
        · simp [smartRetryGo, htr, hconf, hv, hth]
        · simp only [smartRetryGo, htr, hconf, hv, hth]
          simpa [hconf, hv, hth] using smartRetryGo_keeps_some truthy val rest x (val x).2
      · simp only [smartRetryGo, htr, hconf, hv]
        simpa [hconf, hv] using smartRetryGo_keeps_some truthy val rest x (val x).2
  · intro α truthy val x rest be bc htr hv
    simp [advancedRetryGo, htr, hv]

/-- C5 witness: an invalid attempt with confidence 0.5 is kept by the expert
retry loop, by the amended theorem at a concrete input. -/
theorem claim_C5_witness :
    smartRetryGo (fun _ : ℕ => true) (fun _ => (false, 1/2)) [some 7]
      ((none : Option ℕ), 0) = ((some 7, 1/2), 1) := by
  have h := (claim_C5_keep_best.1 ℕ (fun _ => true) (fun _ => (false, 1/2)) 7 []
    none 0 rfl (by norm_num)).1
  rw [h]
  simp [smartRetryGo]

theorem advancedRetryGo_exit_bound {α : Type} (truthy : α → Bool) (val : α → Bool × ℚ) :
    ∀ (attempts : List (Option α)) (i : ℕ) (x : α) (be : Option α) (bc : ℚ),
      bc ≤ 4/5 → attempts[i]? = some (some x) → truthy x = true →
      (val x).1 = true → (4 : ℚ)/5 < (val x).2 →
      (advancedRetryGo truthy val attempts (be, bc)).2 ≤ i + 1 := by
  intro attempts
  induction attempts with
  | nil => intro i x be bc _ hget; simp at hget
  | cons a rest ih =>
      intro i x be bc hbc hget htr hv hth
      cases i with
      | zero =>
          simp at hget
          subst hget
          have hconf : bc < (val x).2 := lt_of_le_of_lt hbc hth
          simp [advancedRetryGo, htr, hv, hconf, hth]
      | succ j =>
          simp only [List.getElem?_cons_succ] at hget
          cases a with
          | none =>
              have hr := ih j x be bc hbc hget htr hv hth
              simp only [advancedRetryGo]
              omega
          | some y =>
              by_cases hty : truthy y = true
              · by_cases hvy : (val y).1 = true
                · by_cases hcy : bc < (val y).2
                  · by_cases hthy : (4 : ℚ)/5 < (val y).2
                    · simp [advancedRetryGo, hty, hvy, hcy, hthy]
                    · have hbc2 : (val y).2 ≤ 4/5 := le_of_not_lt hthy
                      have hr := ih j x (some y) ((val y).2) hbc2 hget htr hv hth
                      simp only [advancedRetryGo, hty, hvy, hcy, hthy]
                      simp [hvy, hcy, hthy]
                      omega
                  · have hr := ih j x be bc hbc hget htr hv hth
                    simp only [advancedRetryGo, hty, hvy, hcy]
                    simp [hvy, hcy]
                    omega
                · have hr := ih j x be bc hbc hget htr hv hth
                  simp only [advancedRetryGo, hty, hvy]
                  simp [hvy]
                  omega
              · have hr := ih j x be bc hbc hget htr hv hth
                simp only [advancedRetryGo, hty]
                simp [hty]
                omega

/-- C6: once an attempt yields a valid result above the high-confidence
threshold, no further attempt is issued in that round.  For the expert agent
(threshold 0.9, two attempts per round) a first valid high-confidence
attempt leaves the second unissued; for the advanced agent (threshold 0.8),
starting from the initial best of 0.0, any valid attempt above the
threshold at position `i` bounds the number of issued attempts by `i + 1`
(the invariant that a held best below the threshold can never block the
exit makes this hold for every reachable state); on the claim's example
confidences `[0.4, 0.95, 0.3]` exactly two attempts are issued. -/
theorem claim_C6_early_exit :
    (∀ (α : Type) (truthy : α → Bool) (val : α → Bool × ℚ) (x : α) (a2 : Option α),
      truthy x = true → (val x).1 = true → (9 : ℚ)/10 < (val x).2 →
      (smartRetryGo truthy val [some x, a2] (none, 0)).2 = 1) ∧
    (∀ (α : Type) (truthy : α → Bool) (val : α → Bool × ℚ)
        (attempts : List (Option α)) (i : ℕ) (x : α),
      attempts[i]? = some (some x) → truthy x = true →
      (val x).1 = true → (4 : ℚ)/5 < (val x).2 →
      (advancedRetryGo truthy val attempts (none, 0)).2 ≤ i + 1) ∧
    (advancedRetryGo (fun _ : ℕ => true)
        (fun n => if n = 0 then (true, 2/5) else if n = 1 then (true, 19/20)
          else (true, 3/10))
        [some 0, some 1, some 2] ((none : Option ℕ), 0) = ((some 1, 19/20), 2)) := by
  refine ⟨?_, ?_, ?_⟩
  · intro α truthy val x a2 htr hv hth
    have hconf : (0 : ℚ) < (val x).2 := lt_trans (by norm_num) hth
    simp [smartRetryGo, htr, hv, hconf, hth]
  · intro α truthy val attempts i x hget htr hv hth
    exact advancedRetryGo_exit_bound truthy val attempts i x none 0 (by norm_num)
      hget htr hv hth
  · norm_num [advancedRetryGo]

/-- C6 witness: the expert conjunct applied to a concrete valid
0.95-confidence first attempt. -/
theorem claim_C6_witness :
    (smartRetryGo (fun _ : ℕ => true) (fun _ => (true, 19/20)) [some 0, some 1]
      ((none : Option ℕ), 0)).2 = 1 :=
  claim_C6_early_exit.1 ℕ (fun _ => true) (fun _ => (true, 19/20)) 0 (some 1)
    rfl rfl (by norm_num)

/-! ## Pipeline lemmas (C7, C8) -/

theorem advancedRetryGo_no_valid {α : Type} (truthy : α → Bool) (val : α → Bool × ℚ) :
    ∀ (attempts : List (Option α)) (be : Option α) (bc : ℚ),
      (∀ a ∈ attempts, ∀ x, a = some x → (val x).1 = false) →
      (advancedRetryGo truthy val attempts (be, bc)).1 = (be, bc) := by
  intro attempts
  induction attempts with
  | nil => intro be bc _; simp [advancedRetryGo]
  | cons a rest ih =>
      intro be bc h
      have hrest : ∀ a ∈ rest, ∀ x, a = some x → (val x).1 = false :=
        fun a2 ha2 x hx => h a2 (List.mem_cons_of_mem _ ha2) x hx
      cases a with
      | none => simpa [advancedRetryGo] using ih be bc hrest
      | some y =>
          have hy : (val y).1 = false := h (some y) (List.mem_cons_self _ _) y rfl
          by_cases hty : truthy y = true
          · simpa [advancedRetryGo, hty, hy] using ih be bc hrest
          · simpa [advancedRetryGo, hty] using ih be bc hrest

theorem smartRetryGo_all_none {α : Type} (truthy : α → Bool) (val : α → Bool × ℚ) :
    ∀ (attempts : List (Option α)) (best : Option α × ℚ),
      (∀ a ∈ attempts, a = none) →
      (smartRetryGo truthy val attempts best).1 = best := by
  intro attempts
  induction attempts with
  | nil => intro best _; simp [smartRetryGo]
  | cons a rest ih =>
      intro best h
      obtain ⟨be, bc⟩ := best
      have ha : a = none := h a (List.mem_cons_self _ _)
      subst ha
      have hrest : ∀ a ∈ rest, a = none := fun a2 ha2 => h a2 (List.mem_cons_of_mem _ ha2)
      simpa [smartRetryGo] using ih (be, bc) hrest

/-- C7 counterexample: a round of the expert agent whose only attempt is
invalid (a string field holding a number scores 0.5, giving confidence 0.5,
below the 0.6 validity bound) still contributes a candidate, because the
expert pipeline only checks `extraction and confidence > 0.3`. -/
theorem claim_C7_counterexample :
    (expertValOf "project" [("price", FieldCfg.mk "string" false)]
        (JVal.obj [("project", JVal.obj [("price", JVal.num 42)])])).1 = false ∧
    expertCandidates "project" [("price", FieldCfg.mk "string" false)]
        [(some (JVal.obj [("project", JVal.obj [("price", JVal.num 42)])]), none)] =
      [(JVal.obj [("project", JVal.obj [("price", JVal.num 42)])], 1/2)] := by
  have hstep : fieldStep (JVal.obj [("price", JVal.num 42)]) "price"
      (FieldCfg.mk "string" false) = (1/2, [msgString "price"]) := by
    simp [fieldStep, pyGetField, assocFind, isFalsyOpt, isFalsyV]
  have hv : validateFields (JVal.obj [("price", JVal.num 42)])
      [("price", FieldCfg.mk "string" false)] = (false, 1/2, [msgString "price"]) := by
    simp [validateFields, hstep]
    norm_num
  have hval : expertValOf "project" [("price", FieldCfg.mk "string" false)]
      (JVal.obj [("project", JVal.obj [("price", JVal.num 42)])]) = (false, 1/2) := by
    simp [expertValOf, validateFieldQuality, isFalsyV, assocFind, hv]
  have h0 : (0 : ℚ) < 1/2 := by norm_num
  have hround : expertRound "project" [("price", FieldCfg.mk "string" false)]
      (some (JVal.obj [("project", JVal.obj [("price", JVal.num 42)])])) none =
      (some (JVal.obj [("project", JVal.obj [("price", JVal.num 42)])]), 1/2) := by
    simp [expertRound, smartRetryGo, truthyV, isFalsyV, hval, h0]
  refine ⟨by simp [hval], ?_⟩
  simp [expertCandidates, List.filterMap_cons, List.filterMap_nil, hround,
        truthyV, isFalsyV]
  norm_num

/-- C7 (amended): in the advanced agent a round none of whose attempts is
valid contributes no candidate to the reconciler; in the expert agent a
round contributes a candidate exactly when its retry result is a truthy
extraction with confidence above 0.3, regardless of validity. -/
theorem claim_C7_candidates :
    (∀ (val : JVal → Bool × ℚ) (att : List (Option JVal))
        (rest : List (List (Option JVal))),
      (∀ a ∈ att, ∀ x, a = some x → (val x).1 = false) →
      advancedCandidates val (att :: rest) = advancedCandidates val rest) ∧
    (∀ (objectName : String) (fields : List (String × FieldCfg))
        (a1 a2 : Option JVal) (rest : List (Option JVal × Option JVal)) (e : JVal) (c : ℚ),
      expertRound objectName fields a1 a2 = (some e, c) → truthyV e = true →
      (3 : ℚ)/10 < c →
      expertCandidates objectName fields ((a1, a2) :: rest) =
        (e, c) :: expertCandidates objectName fields rest) := by
  constructor
  · intro val att rest h
    have hres := advancedRetryGo_no_valid truthyV val att none 0 h
    simp [advancedCandidates, hres]
  · intro objectName fields a1 a2 rest e c hround htr hc
    simp [expertCandidates, hround, htr, hc]

/-- C7 witness: the amended advanced-agent conjunct applied to a concrete
single-attempt round whose validation always fails. -/
theorem claim_C7_witness :
    advancedCandidates (fun _ => (false, 1/2)) [[some (JVal.num 1)]] = [] := by
  have h := claim_C7_candidates.1 (fun _ => (false, 1/2)) [some (JVal.num 1)] []
    (by intro a ha x hx; rfl)
  rw [h]
  rfl

/-- C8: if every extraction attempt in every round returns nothing, both
pipelines return an overall `None` and raise no exception (the result is
`Except.ok none`, never `Except.error`). -/
theorem claim_C8_all_failure :
    (∀ (objectName : String) (fields : List (String × FieldCfg))
        (rounds : List (Option JVal × Option JVal)),
      (∀ r ∈ rounds, r.1 = none ∧ r.2 = none) →
      expertProcess objectName fields rounds = .ok none) ∧
    (∀ (val : JVal → Bool × ℚ) (rounds : List (List (Option JVal))),
      (∀ att ∈ rounds, ∀ a ∈ att, a = none) →
      advancedProcess val rounds = .ok none) := by
  constructor
  · intro objectName fields rounds h
    have hcand : expertCandidates objectName fields rounds = [] := by
      induction rounds with
      | nil => rfl
      | cons r rest ih =>
          obtain ⟨h1, h2⟩ := h r (List.mem_cons_self _ _)
          have hrest := ih (fun r2 hr2 => h r2 (List.mem_cons_of_mem _ hr2))
          have hround : expertRound objectName fields r.1 r.2 = (none, 0) := by
            rw [h1, h2]
            exact smartRetryGo_all_none truthyV _ [none, none] (none, 0) (by simp)
          obtain ⟨ra, rb⟩ := r
          simp only [expertCandidates, List.filterMap_cons] at hrest ⊢
          simp only at hround
          rw [hround]
          exact hrest
    simp [expertProcess, hcand]
  · intro val rounds h
    have hcand : advancedCandidates val rounds = [] := by
      induction rounds with
      | nil => rfl
      | cons att rest ih =>
          have hatt := h att (List.mem_cons_self _ _)
          have hrest := ih (fun a2 ha2 => h a2 (List.mem_cons_of_mem _ ha2))
          have hround : (advancedRetryGo truthyV val att (none, 0)).1 = (none, 0) :=
            advancedRetryGo_no_valid truthyV val att none 0
              (fun a ha x hx => absurd (hx ▸ hatt a ha) (by simp))
          simp only [advancedCandidates, List.filterMap_cons] at hrest ⊢
          rw [hround]
          exact hrest
    simp [advancedProcess, hcand]

/-- C8 witness: the theorem applied to concrete all-`None` rounds. -/
theorem claim_C8_witness :
    expertProcess "p" [] [(none, none), (none, none)] = .ok none ∧
    advancedProcess (fun _ => (true, 1)) [[none, none], [none]] = .ok none :=
  ⟨claim_C8_all_failure.1 "p" [] [(none, none), (none, none)] (by simp),
   claim_C8_all_failure.2 (fun _ => (true, 1)) [[none, none], [none]] (by simp)⟩

/-! ## Schema builder lemmas (C9) -/

theorem fieldEntry_unique_by_key (l : List (String × FieldEntry)) (k : String)
    (b1 b2 : FieldEntry) (hnodup : (l.map Prod.fst).Nodup)
    (h1 : (k, b1) ∈ l) (h2 : (k, b2) ∈ l) : b1 = b2 := by
  induction l with
  | nil => simp at h1
  | cons hd tl ih =>
      obtain ⟨k1, v1⟩ := hd
      simp only [List.map_cons, List.nodup_cons] at hnodup
      obtain ⟨hnot, hnd⟩ := hnodup
      rcases List.mem_cons.1 h1 with he1 | hm1
      · injection he1 with ha hb
        subst ha
        rcases List.mem_cons.1 h2 with he2 | hm2
        · injection he2 with ha2 hb2
          rw [hb, ← hb2]
        · exact absurd (List.mem_map_of_mem Prod.fst hm2) hnot
      · rcases List.mem_cons.1 h2 with he2 | hm2
        · injection he2 with ha2 hb2
          subst ha2
          exact absurd (List.mem_map_of_mem Prod.fst hm1) hnot
        · exact ih hnd hm1 hm2

/-- C9 counterexample: a configuration with an empty field name and the
unknown type `banana` flows through the builder, which returns a complete
function declaration embedding both verbatim — no `ConfigError` (the source
has no validation and no raise statement at all). -/
theorem claim_C9_counterexample :
    (createFunctionDeclarationFromConfig
        (CrawlerConfig.mk "f" "desc" "obj" false
          [("", FieldEntry.mk "banana" "d" true)])).parameters =
      JVal.obj [("type", JVal.str "object"),
        ("properties", JVal.obj [("obj",
          JVal.obj [("type", JVal.str "object"),
            ("properties", JVal.obj [("", JVal.obj [("type", JVal.str "banana")])]),
            ("required", JVal.arr [JVal.str ""])])]),
        ("required", JVal.arr [JVal.str "obj"])] := rfl

/-- C9 (amended): the schema builder validates nothing and always produces a
declaration: every configured field, whatever its type string (including
ones outside the string/number set) and whatever its name (including the
empty one), appears verbatim in the properties schema, is listed as required
exactly when its flag is set, and the declaration's parameters wrap the
object schema under the configured object name. -/
theorem assocFind_fieldProperties (fields : List (String × FieldEntry)) (k : String)
    (fe : FieldEntry) (hdist : (fields.map Prod.fst).Nodup) (hmem : (k, fe) ∈ fields) :
    assocFind (fields.map (fun nf => (nf.1, JVal.obj [("type", JVal.str nf.2.ftype)]))) k =
      some (JVal.obj [("type", JVal.str fe.ftype)]) := by
  induction fields with
  | nil => simp at hmem
  | cons hd tl ih =>
      simp only [List.map_cons, List.nodup_cons] at hdist
      obtain ⟨hnot, hnd⟩ := hdist
      rcases List.mem_cons.1 hmem with he | hm
      · rw [← he]
        simp [assocFind]
      · have hk : ¬ hd.1 = k := by
          intro hbad
          exact hnot (hbad ▸ List.mem_map_of_mem Prod.fst hm)
        simp only [List.map_cons, assocFind, hk, if_false]
        exact ih hnd hm

theorem claim_C9_no_validation (config : CrawlerConfig) (k : String) (fe : FieldEntry)
    (hdist : (config.fields.map Prod.fst).Nodup) (hmem : (k, fe) ∈ config.fields) :
    assocFind (fieldProperties config) k = some (JVal.obj [("type", JVal.str fe.ftype)]) ∧
    (JVal.str k ∈ requiredNames config ↔ fe.required = true) ∧
    (createFunctionDeclarationFromConfig config).parameters =
      JVal.obj [("type", JVal.str "object"),
        ("properties", JVal.obj [(config.objectName, objectSchema config)]),
        ("required", JVal.arr [JVal.str config.objectName])] := by
  refine ⟨assocFind_fieldProperties config.fields k fe hdist hmem, ⟨?_, ?_⟩, rfl⟩
  · intro hreq
    unfold requiredNames at hreq
    rw [List.mem_map] at hreq
    obtain ⟨nf, hnf, heq⟩ := hreq
    rw [List.mem_filter] at hnf
    obtain ⟨hnfmem, hnfreq⟩ := hnf
    injection heq.symm with hkeq
    have hval : nf.2 = fe := by
      refine fieldEntry_unique_by_key config.fields k nf.2 fe hdist ?_ hmem
      rw [hkeq]
      exact hnfmem
    rw [← hval]
    exact hnfreq
  · intro hreq
    unfold requiredNames
    rw [List.mem_map]
    refine ⟨(k, fe), ?_, rfl⟩
    rw [List.mem_filter]
    exact ⟨hmem, hreq⟩

/-- C9 witness: the amended theorem applied to the malformed configuration —
the unknown type string appears verbatim in the produced schema. -/
theorem claim_C9_witness :
    assocFind (fieldProperties (CrawlerConfig.mk "f" "desc" "obj" false
        [("", FieldEntry.mk "banana" "d" true)])) "" =
      some (JVal.obj [("type", JVal.str "banana")]) :=
  (claim_C9_no_validation
    (CrawlerConfig.mk "f" "desc" "obj" false [("", FieldEntry.mk "banana" "d" true)])
    "" (FieldEntry.mk "banana" "d" true) (by simp) (by simp)).1

/-! ## Voting lemmas (C4) -/

theorem pyScalarEq_refl (v : JVal) (h : isScalarB v = true) : pyScalarEq v v = true := by
  cases v <;> simp [pyScalarEq, isScalarB] at h ⊢

theorem pyScalarEq_symm (a b : JVal) : pyScalarEq a b = pyScalarEq b a := by
  cases a <;> cases b <;> simp [pyScalarEq, eq_comm]

theorem pyScalarEq_trans (a b c : JVal) (h1 : pyScalarEq a b = true)
    (h2 : pyScalarEq b c = true) : pyScalarEq a c = true := by
  cases a <;> cases b <;> cases c <;>
    simp [pyScalarEq] at h1 h2 ⊢ <;>
    first
    | exact h1.trans h2
    | omega
    | (simp_all; done)
    | (split_ifs at * <;> simp_all)

theorem pyScalarEq_fun_ext (u w : JVal) (h : pyScalarEq u w = true) :
    (fun x => pyScalarEq u x) = (fun x => pyScalarEq w x) := by
  funext x
  cases hx : pyScalarEq w x with
  | true => exact pyScalarEq_trans u w x h hx
  | false =>
      by_contra hbad
      rw [Bool.not_eq_false] at hbad
      have hwu : pyScalarEq w u = true := by rw [pyScalarEq_symm]; exact h
      have := pyScalarEq_trans w u x hwu hbad
      simp [this] at hx

theorem countV_congr (values : List JVal) (u w : JVal) (h : pyScalarEq u w = true) :
    countV values u = countV values w := by
  unfold countV
  rw [pyScalarEq_fun_ext u w h]

theorem firstIdx_congr (values : List JVal) (u w : JVal) (h : pyScalarEq u w = true) :
    firstIdx values u = firstIdx values w := by
  unfold firstIdx
  rw [pyScalarEq_fun_ext u w h]

theorem maxByCount_spec (values : List JVal) :
    ∀ (us : List JVal) (b : JVal),
      List.Pairwise (fun a c => firstIdx values a < firstIdx values c) (b :: us) →
      (maxByCount values us b ∈ b :: us) ∧
      (∀ w ∈ b :: us, countV values w ≤ countV values (maxByCount values us b)) ∧
      (∀ w ∈ b :: us, countV values w = countV values (maxByCount values us b) →
        firstIdx values (maxByCount values us b) ≤ firstIdx values w) := by
  intro us
  induction us with
  | nil =>
      intro b _
      refine ⟨List.mem_cons_self _ _, ?_, ?_⟩
      · intro w hw
        rcases List.mem_cons.1 hw with he | hm
        · subst he
          simp [maxByCount]
        · simp at hm
      · intro w hw _
        rcases List.mem_cons.1 hw with he | hm
        · subst he
          simp [maxByCount]
        · simp at hm
  | cons u us2 ih =>
      intro b hpw
      rw [List.pairwise_cons] at hpw
      obtain ⟨hb, hpw2⟩ := hpw
      have hu : ∀ a ∈ us2, firstIdx values u < firstIdx values a := by
        rw [List.pairwise_cons] at hpw2
        exact hpw2.1
      have hpw3 : List.Pairwise (fun a c => firstIdx values a < firstIdx values c) us2 := by
        rw [List.pairwise_cons] at hpw2
        exact hpw2.2
      by_cases hc : countV values b < countV values u
      · have hrw : maxByCount values (u :: us2) b = maxByCount values us2 u := by
          simp [maxByCount, hc]
        have hpair2 : List.Pairwise (fun a c => firstIdx values a < firstIdx values c)
            (u :: us2) := hpw2
        obtain ⟨ihmem, ihmax, ihtie⟩ := ih u hpair2
        rw [hrw]
        refine ⟨?_, ?_, ?_⟩
        · rcases List.mem_cons.1 ihmem with he | hm
          · rw [he]
            exact List.mem_cons_of_mem _ (List.mem_cons_self _ _)
          · exact List.mem_cons_of_mem _ (List.mem_cons_of_mem _ hm)
        · intro w hw
          rcases List.mem_cons.1 hw with he | hm
          · subst he
            exact le_trans (le_of_lt hc) (ihmax u (List.mem_cons_self _ _))
          · exact ihmax w hm
        · intro w hw hteq
          rcases List.mem_cons.1 hw with he | hm
          · subst he
            exfalso
            have := ihmax u (List.mem_cons_self _ _)
            omega
          · exact ihtie w hm hteq
      · have hrw : maxByCount values (u :: us2) b = maxByCount values us2 b := by
          simp [maxByCount, hc]
        have hpair2 : List.Pairwise (fun a c => firstIdx values a < firstIdx values c)
            (b :: us2) := by
          rw [List.pairwise_cons]
          exact ⟨fun a ha => hb a (List.mem_cons_of_mem _ ha), hpw3⟩
        obtain ⟨ihmem, ihmax, ihtie⟩ := ih b hpair2
        rw [hrw]
        refine ⟨?_, ?_, ?_⟩
        · rcases List.mem_cons.1 ihmem with he | hm
          · rw [he]
            exact List.mem_cons_self _ _
          · exact List.mem_cons_of_mem _ (List.mem_cons_of_mem _ hm)
        · intro w hw
          rcases List.mem_cons.1 hw with he | hm
          · rw [he]
            exact ihmax b (List.mem_cons_self _ _)
          · rcases List.mem_cons.1 hm with he2 | hm2
            · rw [he2]
              exact le_trans (not_lt.1 hc) (ihmax b (List.mem_cons_self _ _))
            · exact ihmax w (List.mem_cons_of_mem _ hm2)
        · intro w hw hteq
          rcases List.mem_cons.1 hw with he | hm
          · rw [he] at hteq ⊢
            exact ihtie b (List.mem_cons_self _ _) hteq
          · rcases List.mem_cons.1 hm with he2 | hm2
            · rw [he2] at hteq ⊢
              have hle : countV values u ≤ countV values b := not_lt.1 hc
              have hble : countV values b ≤
                  countV values (maxByCount values us2 b) :=
                ihmax b (List.mem_cons_self _ _)
              have hbeq : countV values b = countV values (maxByCount values us2 b) := by
                omega
              have hpos := ihtie b (List.mem_cons_self _ _) hbeq
              have hbu : firstIdx values b < firstIdx values u :=
                hb u (List.mem_cons_self _ _)
              omega
            · exact ihtie w (List.mem_cons_of_mem _ hm2) hteq

theorem findIdx_append_cons_le (p : JVal → Bool) (v : JVal) (hv : p v = true)
    (proc rest : List JVal) : (proc ++ v :: rest).findIdx p ≤ proc.length := by
  induction proc with
  | nil => simp [List.findIdx_cons, hv]
  | cons a proc2 ih =>
      rw [List.cons_append, List.findIdx_cons]
      cases hpa : p a
      · simp only [cond_false]
        simpa using ih
      · simp

theorem exists_mem_of_findIdx_lt (p : JVal → Bool) (l2 : List JVal) :
    ∀ (l1 : List JVal), (l1 ++ l2).findIdx p < l1.length → ∃ w ∈ l1, p w = true := by
  intro l1
  induction l1 with
  | nil => intro h; simp at h
  | cons a t ih =>
      intro h
      rw [List.cons_append, List.findIdx_cons] at h
      cases hpa : p a
      · rw [hpa] at h
        simp only [cond_false, List.length_cons] at h
        have h2 : (t ++ l2).findIdx p < t.length := by omega
        obtain ⟨w, hw, hpw⟩ := ih h2
        exact ⟨w, List.mem_cons_of_mem _ hw, hpw⟩
      · exact ⟨a, List.mem_cons_self _ _, hpa⟩

theorem fsu_go (values : List JVal) (hsc : ∀ w ∈ values, isScalarB w = true) :
    ∀ (rem processed acc : List JVal),
      values = processed ++ rem →
      (∀ u ∈ acc, u ∈ processed) →
      (∀ w ∈ processed, ∃ u ∈ acc, pyScalarEq u w = true) →
      (∀ u ∈ acc, firstIdx values u < processed.length) →
      List.Pairwise (fun a c => firstIdx values a < firstIdx values c) acc →
      (∀ u ∈ List.foldl (fun acc2 v =>
          if acc2.any (fun u2 => pyScalarEq v u2) then acc2 else acc2 ++ [v]) acc rem,
          u ∈ values) ∧
      (∀ w ∈ values, ∃ u ∈ List.foldl (fun acc2 v =>
          if acc2.any (fun u2 => pyScalarEq v u2) then acc2 else acc2 ++ [v]) acc rem,
          pyScalarEq u w = true) ∧
      List.Pairwise (fun a c => firstIdx values a < firstIdx values c)
        (List.foldl (fun acc2 v =>
          if acc2.any (fun u2 => pyScalarEq v u2) then acc2 else acc2 ++ [v]) acc rem) := by
  intro rem
  induction rem with
  | nil =>
      intro processed acc heq hmem hcov _ hpw
      have hpv : processed = values := by simp [heq]
      subst hpv
      exact ⟨fun u hu => by simpa using hmem u hu,
             fun w hw => by simpa using hcov w hw, hpw⟩
  | cons v rem2 ih =>
      intro processed acc heq hmem hcov hpos hpw
      have heq2 : values = (processed ++ [v]) ++ rem2 := by simp [heq]
      have hvval : v ∈ values := by
        rw [heq]
        exact List.mem_append_right _ (List.mem_cons_self _ _)
      simp only [List.foldl_cons]
      by_cases hany : (acc.any (fun u2 => pyScalarEq v u2)) = true
      · rw [if_pos hany]
        refine ih (processed ++ [v]) acc heq2 ?_ ?_ ?_ hpw
        · intro u hu
          exact List.mem_append_left _ (hmem u hu)
        · intro w hw
          rcases List.mem_append.1 hw with h1 | h2
          · exact hcov w h1
          · rw [List.mem_singleton.1 h2]
            rw [List.any_eq_true] at hany
            obtain ⟨u, hu, hequ⟩ := hany
            exact ⟨u, hu, by rw [pyScalarEq_symm]; exact hequ⟩
        · intro u hu
          have := hpos u hu
          simp only [List.length_append, List.length_singleton]
          omega
      · rw [if_neg hany]
        have hvsc : isScalarB v = true := hsc v hvval
        have hrefl : pyScalarEq v v = true := pyScalarEq_refl v hvsc
        have hposv : firstIdx values v = processed.length := by
          have hle : firstIdx values v ≤ processed.length := by
            unfold firstIdx
            rw [heq]
            exact findIdx_append_cons_le _ v hrefl processed rem2
          rcases lt_or_eq_of_le hle with hlt | heqp
          · exfalso
            have hlt2 : (processed ++ v :: rem2).findIdx (fun u => pyScalarEq v u) <
                processed.length := by
              unfold firstIdx at hlt
              rw [heq] at hlt
              exact hlt
            obtain ⟨w, hw, hpw2⟩ := exists_mem_of_findIdx_lt _ _ processed hlt2
            obtain ⟨u, hu, hequ⟩ := hcov w hw
            have hvu : pyScalarEq v u = true := by
              rw [pyScalarEq_symm]
              refine pyScalarEq_trans u w v hequ ?_
              rw [pyScalarEq_symm]
              exact hpw2
            rw [List.any_eq_true] at hany
            exact hany ⟨u, hu, hvu⟩
          · exact heqp
        refine ih (processed ++ [v]) (acc ++ [v]) heq2 ?_ ?_ ?_ ?_
        · intro u hu
          rcases List.mem_append.1 hu with h1 | h2
          · exact List.mem_append_left _ (hmem u h1)
          · exact List.mem_append_right _ h2
        · intro w hw
          rcases List.mem_append.1 hw with h1 | h2
          · obtain ⟨u, hu, hequ⟩ := hcov w h1
            exact ⟨u, List.mem_append_left _ hu, hequ⟩
          · rw [List.mem_singleton.1 h2]
            exact ⟨v, List.mem_append_right _ (List.mem_cons_self _ _), hrefl⟩
        · intro u hu
          simp only [List.length_append, List.length_singleton]
          rcases List.mem_append.1 hu with h1 | h2
          · have := hpos u h1
            omega
          · rw [List.mem_singleton.1 h2, hposv]
            omega
        · rw [List.pairwise_append]
          refine ⟨hpw, List.pairwise_singleton _ _, ?_⟩
          intro a ha b hb
          rw [List.mem_singleton.1 hb, hposv]
          exact hpos a ha

theorem fsu_invariants (values : List JVal) (hsc : ∀ w ∈ values, isScalarB w = true) :
    (∀ u ∈ firstSeenUniques values, u ∈ values) ∧
    (∀ w ∈ values, ∃ u ∈ firstSeenUniques values, pyScalarEq u w = true) ∧
    List.Pairwise (fun a c => firstIdx values a < firstIdx values c)
      (firstSeenUniques values) := by
  have h := fsu_go values hsc values [] []
    (by simp) (by simp) (by simp) (by simp) (by simp)
  unfold firstSeenUniques
  exact h

theorem mostCommonFirst_spec (values : List JVal) (hne : values ≠ [])
    (hsc : ∀ w ∈ values, isScalarB w = true) :
    ∃ v, mostCommonFirst values = some v ∧ MostFreqFirstSeen values v := by
  obtain ⟨hmem, hcov, hpw⟩ := fsu_invariants values hsc
  cases hfsu : firstSeenUniques values with
  | nil =>
      exfalso
      obtain ⟨w, hw⟩ := List.exists_mem_of_ne_nil values hne
      obtain ⟨u, hu, _⟩ := hcov w hw
      rw [hfsu] at hu
      simp at hu
  | cons u us =>
      rw [hfsu] at hmem hcov hpw
      obtain ⟨hmmem, hmmax, hmtie⟩ := maxByCount_spec values us u hpw
      refine ⟨maxByCount values us u, by simp [mostCommonFirst, hfsu], ?_, ?_, ?_⟩
      · exact hmem _ hmmem
      · intro w hw
        obtain ⟨u2, hu2, hequ2⟩ := hcov w hw
        have hcnt : countV values w = countV values u2 :=
          (countV_congr values u2 w hequ2).symm
        rw [hcnt]
        exact hmmax u2 hu2
      · intro w hw hteq
        obtain ⟨u2, hu2, hequ2⟩ := hcov w hw
        have hcnt : countV values u2 = countV values w := countV_congr values u2 w hequ2
        have hidx : firstIdx values u2 = firstIdx values w := firstIdx_congr values u2 w hequ2
        rw [← hidx]
        exact hmtie u2 hu2 (by rw [hcnt, hteq])

theorem inner_fold_sub (f : List (String × JVal)) :
    ∀ (acc : List String) (x : String), x ∈ acc →
      x ∈ f.foldl (fun acc2 kv => if acc2.contains kv.1 then acc2 else acc2 ++ [kv.1]) acc := by
  induction f with
  | nil => intro acc x hx; simpa using hx
  | cons kv rest ih =>
      intro acc x hx
      simp only [List.foldl_cons]
      by_cases hc : acc.contains kv.1
      · rw [if_pos hc]
        exact ih acc x hx
      · rw [if_neg hc]
        exact ih _ x (List.mem_append_left _ hx)

theorem inner_fold_mem (f : List (String × JVal)) :
    ∀ (acc : List String) (kv : String × JVal), kv ∈ f →
      kv.1 ∈ f.foldl (fun acc2 kv2 => if acc2.contains kv2.1 then acc2
        else acc2 ++ [kv2.1]) acc := by
  induction f with
  | nil => intro acc kv h; simp at h
  | cons hd rest ih =>
      intro acc kv h
      simp only [List.foldl_cons]
      rcases List.mem_cons.1 h with he | hm
      · subst he
        by_cases hc : acc.contains kv.1
        · rw [if_pos hc]
          exact inner_fold_sub rest acc kv.1 (List.mem_of_elem_eq_true hc)
        · rw [if_neg hc]
          exact inner_fold_sub rest _ kv.1
            (List.mem_append_right _ (List.mem_singleton.2 rfl))
      · exact ih _ kv hm

theorem inner_fold_nodup (f : List (String × JVal)) :
    ∀ (acc : List String), acc.Nodup →
      (f.foldl (fun acc2 kv => if acc2.contains kv.1 then acc2
        else acc2 ++ [kv.1]) acc).Nodup := by
  induction f with
  | nil => intro acc h; simpa using h
  | cons hd rest ih =>
      intro acc h
      simp only [List.foldl_cons]
      by_cases hc : acc.contains hd.1
      · rw [if_pos hc]
        exact ih acc h
      · rw [if_neg hc]
        refine ih _ ?_
        rw [List.nodup_append]
        refine ⟨h, List.nodup_singleton _, ?_⟩
        intro a ha hb
        rw [List.mem_singleton] at hb
        subst hb
        exact hc (List.elem_eq_true_of_mem ha)

theorem outer_fold_sub (flats : List (List (String × JVal))) :
    ∀ (acc : List String) (x : String), x ∈ acc →
      x ∈ flats.foldl (fun acc f =>
        f.foldl (fun acc2 kv => if acc2.contains kv.1 then acc2
          else acc2 ++ [kv.1]) acc) acc := by
  induction flats with
  | nil => intro acc x hx; simpa using hx
  | cons f rest ih =>
      intro acc x hx
      simp only [List.foldl_cons]
      exact ih _ x (inner_fold_sub f acc x hx)

theorem allKeys_mem_of (flats : List (List (String × JVal))) :
    ∀ (acc : List String) (f : List (String × JVal)), f ∈ flats →
      ∀ kv ∈ f, kv.1 ∈ flats.foldl (fun acc f =>
        f.foldl (fun acc2 kv => if acc2.contains kv.1 then acc2
          else acc2 ++ [kv.1]) acc) acc := by
  induction flats with
  | nil => intro acc f hf; simp at hf
  | cons f0 rest ih =>
      intro acc f hf kv hkv
      simp only [List.foldl_cons]
      rcases List.mem_cons.1 hf with he | hm
      · subst he
        exact outer_fold_sub rest _ kv.1 (inner_fold_mem f acc kv hkv)
      · exact ih _ f hm kv hkv

theorem allKeys_nodup (flats : List (List (String × JVal))) : (allKeys flats).Nodup := by
  unfold allKeys
  have hgen : ∀ (fl : List (List (String × JVal))) (acc : List String), acc.Nodup →
      (fl.foldl (fun acc f =>
        f.foldl (fun acc2 kv => if acc2.contains kv.1 then acc2
          else acc2 ++ [kv.1]) acc) acc).Nodup := by
    intro fl
    induction fl with
    | nil => intro acc h; simpa using h
    | cons f rest ih =>
        intro acc h
        simp only [List.foldl_cons]
        exact ih _ (inner_fold_nodup f acc h)
  exact hgen flats [] (List.nodup_nil)

theorem assocFind_some_key (f : List (String × JVal)) (k : String) (v : JVal)
    (h : assocFind f k = some v) : ∃ kv ∈ f, kv.1 = k := by
  induction f with
  | nil => simp [assocFind] at h
  | cons hd rest ih =>
      obtain ⟨k1, v1⟩ := hd
      by_cases hk : k1 = k
      · exact ⟨(k1, v1), List.mem_cons_self _ _, hk⟩
      · simp only [assocFind, hk, if_false] at h
        obtain ⟨kv, hkv, hkeq⟩ := ih h
        exact ⟨kv, List.mem_cons_of_mem _ hkv, hkeq⟩

theorem collectVals_key_mem (flats : List (List (String × JVal))) (k : String)
    (hne : collectVals flats k ≠ []) : k ∈ allKeys flats := by
  have hex : ∃ f ∈ flats, ∃ kv ∈ f, kv.1 = k := by
    induction flats with
    | nil => simp [collectVals] at hne
    | cons f rest ih =>
        cases hfind : assocFind f k with
        | some v =>
            obtain ⟨kv, hkv, hkeq⟩ := assocFind_some_key f k v hfind
            exact ⟨f, List.mem_cons_self _ _, kv, hkv, hkeq⟩
        | none =>
            unfold collectVals at hne
            rw [List.filterMap_cons_none (by simp [hfind])] at hne
            obtain ⟨f2, hf2, kv, hkv, hkeq⟩ := ih hne
            exact ⟨f2, List.mem_cons_of_mem _ hf2, kv, hkv, hkeq⟩
  obtain ⟨f, hf, kv, hkv, hkeq⟩ := hex
  rw [← hkeq]
  exact allKeys_mem_of flats [] f hf kv hkv

theorem assocFind_filterMap_none (g : String → Option JVal) :
    ∀ (keys : List String) (k : String), k ∉ keys →
      assocFind (keys.filterMap (fun k2 => (g k2).map (fun w => (k2, w)))) k = none := by
  intro keys
  induction keys with
  | nil => intro k _; simp [assocFind]
  | cons k1 rest ih =>
      intro k hk
      have hne : ¬ k1 = k := fun h => hk (h ▸ List.mem_cons_self _ _)
      have hk2 : k ∉ rest := fun h => hk (List.mem_cons_of_mem _ h)
      cases hg : g k1 with
      | none =>
          have hstep : List.filterMap (fun k2 => (g k2).map (fun w => (k2, w))) (k1 :: rest)
              = List.filterMap (fun k2 => (g k2).map (fun w => (k2, w))) rest := by
            simp [hg]
          rw [hstep]
          exact ih k hk2
      | some w =>
          have hstep : List.filterMap (fun k2 => (g k2).map (fun w => (k2, w))) (k1 :: rest)
              = (k1, w) :: List.filterMap (fun k2 => (g k2).map (fun w => (k2, w))) rest := by
            simp [hg]
          rw [hstep]
          simp only [assocFind, hne, if_false]
          exact ih k hk2

theorem assocFind_filterMap_keys (g : String → Option JVal) :
    ∀ (keys : List String), keys.Nodup → ∀ k ∈ keys,
      assocFind (keys.filterMap (fun k2 => (g k2).map (fun w => (k2, w)))) k = g k := by
  intro keys
  induction keys with
  | nil => intro _ k hk; simp at hk
  | cons k1 rest ih =>
      intro hnd k hk
      rw [List.nodup_cons] at hnd
      obtain ⟨hk1nin, hnd2⟩ := hnd
      rcases List.mem_cons.1 hk with he | hm
      · subst he
        cases hg : g k with
        | none =>
            have hstep : List.filterMap (fun k2 => (g k2).map (fun w => (k2, w))) (k :: rest)
                = List.filterMap (fun k2 => (g k2).map (fun w => (k2, w))) rest := by
              simp [hg]
            rw [hstep]
            exact assocFind_filterMap_none g rest k hk1nin
        | some w =>
            have hstep : List.filterMap (fun k2 => (g k2).map (fun w => (k2, w))) (k :: rest)
                = (k, w) :: List.filterMap (fun k2 => (g k2).map (fun w => (k2, w))) rest := by
              simp [hg]
            rw [hstep]
            simp [assocFind]
      · have hne : ¬ k1 = k := fun h => hk1nin (h ▸ hm)
        cases hg : g k1 with
        | none =>
            have hstep : List.filterMap (fun k2 => (g k2).map (fun w => (k2, w))) (k1 :: rest)
                = List.filterMap (fun k2 => (g k2).map (fun w => (k2, w))) rest := by
              simp [hg]
            rw [hstep]
            exact ih hnd2 k hm
        | some w =>
            have hstep : List.filterMap (fun k2 => (g k2).map (fun w => (k2, w))) (k1 :: rest)
                = (k1, w) :: List.filterMap (fun k2 => (g k2).map (fun w => (k2, w))) rest := by
              simp [hg]
            rw [hstep]
            simp only [assocFind, hne, if_false]
            exact ih hnd2 k hm

/-- C4: the voting reconciler keys on every field path appearing in some
flattened input and collects its present non-null values in input order; a
path with at least one collected value receives exactly one voted entry,
which — when every collected value is a scalar — is a most frequent value
with ties broken in favour of the earliest first occurrence, and otherwise
is the first collected value; a path with no collected value receives no
entry; in particular the votes 1, 2, 1 elect 1. -/
theorem claim_C4_voting :
    (∀ (flats : List (List (String × JVal))) (k : String),
        collectVals flats k ≠ [] →
        ∃ v, assocFind (voteCore flats) k = some v ∧
          ((∀ w ∈ collectVals flats k, isScalarB w = true) →
            MostFreqFirstSeen (collectVals flats k) v) ∧
          (¬ (∀ w ∈ collectVals flats k, isScalarB w = true) →
            some v = (collectVals flats k).head?)) ∧
    (∀ (flats : List (List (String × JVal))) (k : String),
        collectVals flats k = [] → assocFind (voteCore flats) k = none) ∧
    voteFor [[("a", JVal.num 1)], [("a", JVal.num 2)], [("a", JVal.num 1)]] "a"
      = some (JVal.num 1) := by
  refine ⟨?_, ?_, ?_⟩
  · intro flats k hne
    have hkmem : k ∈ allKeys flats := collectVals_key_mem flats k hne
    have hfind : assocFind (voteCore flats) k = voteFor flats k := by
      unfold voteCore
      exact assocFind_filterMap_keys (voteFor flats) (allKeys flats)
        (allKeys_nodup flats) k hkmem
    cases hcv : collectVals flats k with
    | nil => exact absurd hcv hne
    | cons v0 vs =>
        by_cases hall : (v0 :: vs).all isScalarB = true
        · obtain ⟨v, hv, hprop⟩ := mostCommonFirst_spec (v0 :: vs) (List.cons_ne_nil _ _)
            (fun w hw => List.all_eq_true.1 hall w hw)
          have hvf : voteFor flats k = mostCommonFirst (v0 :: vs) := by
            unfold voteFor
            rw [hcv]
            exact if_pos hall
          refine ⟨v, ?_, ?_, ?_⟩
          · rw [hfind, hvf, hv]
          · intro _
            exact hprop
          · intro hns
            exact absurd (fun w hw => List.all_eq_true.1 hall w hw) hns
        · have hvf : voteFor flats k = some v0 := by
            unfold voteFor
            rw [hcv]
            exact if_neg hall
          refine ⟨v0, ?_, ?_, ?_⟩
          · rw [hfind, hvf]
          · intro hs
            exact absurd (List.all_eq_true.2 hs) hall
          · intro _
            rfl
  · intro flats k hcv
    by_cases hk : k ∈ allKeys flats
    · have hfind : assocFind (voteCore flats) k = voteFor flats k := by
        unfold voteCore
        exact assocFind_filterMap_keys (voteFor flats) (allKeys flats)
          (allKeys_nodup flats) k hk
      rw [hfind]
      unfold voteFor
      rw [hcv]
    · unfold voteCore
      exact assocFind_filterMap_none (voteFor flats) (allKeys flats) k hk
  · rfl

/-- Witness for C4: the claim instantiated on the three inputs
`[("a", 1)], [("a", 2)], [("a", 1)]` of the tie-break example. -/
theorem claim_C4_witness :
    collectVals [[("a", JVal.num 1)], [("a", JVal.num 2)], [("a", JVal.num 1)]] "a" ≠ [] ∧
    ∃ v,
      assocFind
          (voteCore [[("a", JVal.num 1)], [("a", JVal.num 2)], [("a", JVal.num 1)]]) "a"
        = some v ∧
      ((∀ w ∈ collectVals [[("a", JVal.num 1)], [("a", JVal.num 2)],
            [("a", JVal.num 1)]] "a", isScalarB w = true) →
        MostFreqFirstSeen
          (collectVals [[("a", JVal.num 1)], [("a", JVal.num 2)],
            [("a", JVal.num 1)]] "a") v) ∧
      (¬ (∀ w ∈ collectVals [[("a", JVal.num 1)], [("a", JVal.num 2)],
            [("a", JVal.num 1)]] "a", isScalarB w = true) →
        some v = (collectVals [[("a", JVal.num 1)], [("a", JVal.num 2)],
          [("a", JVal.num 1)]] "a").head?) :=
  ⟨by simp [collectVals, assocFind],
   claim_C4_voting.1 _ "a" (by simp [collectVals, assocFind])⟩
